import Mathlib

/-!
# Verification of the skip-list implementation (`skip_list.py`)

Shallow embedding of the `SkipList` class from `src/skip_list.py`.

Modelling choices:
* Python heap objects (`SkipNode`) live in an arena (`List SkipNode`); a
  reference to a node is its index in the arena, so a Python forward pointer
  (`node` or `None`) becomes an `Option Nat`.  Deleted nodes simply become
  unreachable, exactly as with Python's garbage collector.
* Keys are integers (`Int`), mirroring the demo/test usage; key comparison is
  the integer order.  Values are `Option Int`: Python's `None` value is
  `none`, so the collapse between a stored `None` and the not-found marker of
  `search` is represented faithfully.
* `random.random()` is modelled by an injected stream of rationals
  (`Nat → Rat`); `p` is a rational.
* The unbounded `while` loops that walk forward pointers are given fuel
  `arena.length + 1`; under the well-formedness invariant proved below the
  fuel is never exhausted, so the fueled functions agree with the Python
  loops on every reachable state.
-/

/-- `SkipNode` from `skip_list.py` (lines 15–28): one key, one value and a
forward-pointer array with `level + 1` slots. -/
structure SkipNode where
  key : Int
  value : Option Int
  forward : List (Option Nat)
  deriving Repr, DecidableEq

/-- The fields of the `SkipList` class (lines 36–47): the configuration
`max_level` and `p`, the header's forward array (the header holds no
key/value, so only its `forward` list is kept), the arena of heap-allocated
nodes, and the current `level`. -/
structure SkipList where
  max_level : Nat
  p : Rat
  arena : List SkipNode
  header : List (Option Nat)
  level : Nat
  deriving Repr

namespace SkipList

/-- `SkipList.__init__` (lines 36–47): stores `max_level` and `p` unchanged,
creates the header node with `max_level + 1` absent forward pointers and sets
`level = 0`.  The Python constructor performs no validation of its arguments
and cannot fail, so the embedding is a total function. -/
def init (max_level : Nat) (p : Rat) : SkipList :=
  { max_level := max_level
    p := p
    arena := []
    header := List.replicate (max_level + 1) none
    level := 0 }

/-- The loop of `random_level` (lines 57–59): `while random.random() < self.p
and level < self.max_level: level += 1`.  `draws idx` is the value returned by
the `idx`-th call to `random.random()`.  The loop terminates for every stream
of draws (even when `p ≥ 1`) because the conjunct `level < max_level` bounds
the number of iterations by `max_level - level`; that bound is carried here
as the structurally decreasing counter `count` (the guard itself is
unchanged, and while `count = max_level - level` holds the counter never
cuts the loop short: when it reaches `0` the guard `level < max_level` is
already false). -/
def random_level_loop (p : Rat) (max_level : Nat) (draws : Nat → Rat) :
    Nat → Nat → Nat → Nat
  | 0, _, level => level
  | count + 1, idx, level =>
    if draws idx < p ∧ level < max_level then
      random_level_loop p max_level draws count (idx + 1) (level + 1)
    else
      level

/-- `SkipList.random_level` (lines 49–60): starts at `level = 0` and runs the
trial loop (`max_level - 0` iterations can happen at most). -/
def random_level (sl : SkipList) (draws : Nat → Rat) : Nat :=
  random_level_loop sl.p sl.max_level draws sl.max_level 0 0

/-- Dereference a position: `none` is the header, `some a` is arena node `a`.
`fwdAt arena header pos i` is `pos.forward[i]`.  (Out-of-range indices give
`none`; under the invariant every access made by the code is in range.) -/
def fwdAt (arena : List SkipNode) (header : List (Option Nat))
    (pos : Option Nat) (i : Nat) : Option Nat :=
  match pos with
  | none => header.getD i none
  | some a =>
    match arena[a]? with
    | some nd => nd.forward.getD i none
    | none => none

/-- Key of arena node `a` (default `0` for an invalid id; never used on
invalid ids under the invariant). -/
def nkey (arena : List SkipNode) (a : Nat) : Int :=
  match arena[a]? with
  | some nd => nd.key
  | none => 0

/-- Value of arena node `a`. -/
def nvalue (arena : List SkipNode) (a : Nat) : Option Int :=
  match arena[a]? with
  | some nd => nd.value
  | none => none

/-- Length of the forward array of arena node `a` (the node's level plus
one). -/
def nlen (arena : List SkipNode) (a : Nat) : Nat :=
  match arena[a]? with
  | some nd => nd.forward.length
  | none => 0

/-- The inner `while` loop of the descent (lines 76–78, 100–102, 143–145):
`while current.forward[i] and current.forward[i].key < key: current =
current.forward[i]`.  Fueled; each iteration consumes one unit. -/
def advance (arena : List SkipNode) (header : List (Option Nat)) (key : Int)
    (i : Nat) : Nat → Option Nat → Option Nat
  | 0, cur => cur
  | fuel + 1, cur =>
    match fwdAt arena header cur i with
    | none => cur
    | some a =>
      match arena[a]? with
      | none => cur
      | some nd =>
        if nd.key < key then advance arena header key i fuel (some a) else cur

/-- The outer `for i in range(self.level, -1, -1)` descent shared by
`search`, `insert` and `delete`: threading `current` from level `i` down to
level `0`, recording the last node visited at each level (the update
vector).  The returned list has length `i + 1` and its entry at index `j` is
`update[j]`.  The final `current` of the Python loop equals `update[0]`. -/
def descend (arena : List SkipNode) (header : List (Option Nat)) (key : Int)
    (fuel : Nat) : Nat → Option Nat → List (Option Nat)
  | 0, cur => [advance arena header key 0 fuel cur]
  | i + 1, cur =>
    let cur2 := advance arena header key (i + 1) fuel cur
    descend arena header key fuel i cur2 ++ [cur2]

/-- `SkipList.search` (lines 62–86): descent, then examine
`current.forward[0]`; if that node exists and its key equals the target,
return its value, else return `None`.  Note that the return type `Option Int`
is the Python value universe: a stored `None` value and the not-found marker
are the same object. -/
def search (sl : SkipList) (key : Int) : Option Int :=
  let fuel := sl.arena.length + 1
  let update := descend sl.arena sl.header key fuel sl.level none
  match fwdAt sl.arena sl.header (update.getD 0 none) 0 with
  | some a =>
    match sl.arena[a]? with
    | some nd => if nd.key = key then nd.value else none
    | none => none
  | none => none

/-- `update[i].forward[i] = tgt`: write one forward slot of the node at
position `pos` (header when `pos = none`).  State is the pair
(arena, header forward array). -/
def setFwd (st : List SkipNode × List (Option Nat)) (pos : Option Nat)
    (i : Nat) (tgt : Option Nat) : List SkipNode × List (Option Nat) :=
  match pos with
  | none => (st.1, st.2.set i tgt)
  | some a =>
    match st.1[a]? with
    | some nd => (st.1.set a { nd with forward := nd.forward.set i tgt }, st.2)
    | none => st

/-- One iteration of the splice loop of `insert` (lines 125–127):
`new_node.forward[i] = update[i].forward[i]; update[i].forward[i] =
new_node`. -/
def spliceStep (updAt : Nat → Option Nat) (nid : Nat) (i : Nat)
    (st : List SkipNode × List (Option Nat)) :
    List SkipNode × List (Option Nat) :=
  let f := fwdAt st.1 st.2 (updAt i) i
  let st1 := setFwd st (some nid) i f
  setFwd st1 (updAt i) i (some nid)

/-- The splice loop `for i in range(new_level + 1)` of `insert`, processing
levels `i, i+1, …` while `count` iterations remain. -/
def spliceLoop (updAt : Nat → Option Nat) (nid : Nat) :
    Nat → Nat → List SkipNode × List (Option Nat) →
    List SkipNode × List (Option Nat)
  | 0, _, st => st
  | c + 1, i, st => spliceLoop updAt nid c (i + 1) (spliceStep updAt nid i st)

/-- The `else` branch of `insert` (lines 111–127): sample `new_level`, raise
`self.level` if needed (the update vector for the new levels is the header,
which is the default of `updAt` out of range), allocate the node with
`new_level + 1` absent forward pointers, and splice it in at levels
`0 … new_level`. -/
def insertNew (sl : SkipList) (key : Int) (value : Option Int)
    (draws : Nat → Rat) (updAt : Nat → Option Nat) : SkipList :=
  let new_level := sl.random_level draws
  let level2 := if new_level > sl.level then new_level else sl.level
  let nid := sl.arena.length
  let arena0 := sl.arena ++ [⟨key, value, List.replicate (new_level + 1) none⟩]
  let st := spliceLoop updAt nid (new_level + 1) 0 (arena0, sl.header)
  { sl with arena := st.1, header := st.2, level := level2 }

/-- `SkipList.insert` (lines 88–127): descent with update vector, then either
replace the value in place (lines 108–110) or splice in a new node.  The
entries of the Python `update` list above `self.level` are only ever read
after being set to the header, which is the default value of
`update.getD · none`. -/
def insert (sl : SkipList) (key : Int) (value : Option Int)
    (draws : Nat → Rat) : SkipList :=
  let fuel := sl.arena.length + 1
  let update := descend sl.arena sl.header key fuel sl.level none
  let updAt : Nat → Option Nat := fun i => update.getD i none
  match fwdAt sl.arena sl.header (updAt 0) 0 with
  | some a =>
    match sl.arena[a]? with
    | some nd =>
      if nd.key = key then
        { sl with arena := sl.arena.set a { nd with value := value } }
      else insertNew sl key value draws updAt
    | none => insertNew sl key value draws updAt
  | none => insertNew sl key value draws updAt

/-- The unlink loop of `delete` (lines 153–156): for `i` ascending, stop at
the first level where `update[i].forward[i]` is not the node being removed,
otherwise retarget `update[i].forward[i]` to `current.forward[i]`. -/
def unlinkLoop (updAt : Nat → Option Nat) (cid : Nat) :
    Nat → Nat → List SkipNode × List (Option Nat) →
    List SkipNode × List (Option Nat)
  | 0, _, st => st
  | c + 1, i, st =>
    if fwdAt st.1 st.2 (updAt i) i = some cid then
      let tf :=
        match st.1[cid]? with
        | some nd => nd.forward.getD i none
        | none => none
      unlinkLoop updAt cid c (i + 1) (setFwd st (updAt i) i tf)
    else st

/-- The level-shrink loop of `delete` (lines 159–160): `while self.level > 0
and self.header.forward[self.level] is None: self.level -= 1`. -/
def shrinkLevel (header : List (Option Nat)) : Nat → Nat
  | 0 => 0
  | l + 1 => if header.getD (l + 1) none = none then shrinkLevel header l else l + 1

/-- `SkipList.delete` (lines 129–164): descent with update vector; if the
node after the level-0 predecessor carries the key, unlink it level by level,
shrink the current level, and return `True`; otherwise return `False` with
the state untouched. -/
def delete (sl : SkipList) (key : Int) : Bool × SkipList :=
  let fuel := sl.arena.length + 1
  let update := descend sl.arena sl.header key fuel sl.level none
  let updAt : Nat → Option Nat := fun i => update.getD i none
  match fwdAt sl.arena sl.header (updAt 0) 0 with
  | some a =>
    match sl.arena[a]? with
    | some nd =>
      if nd.key = key then
        let st := unlinkLoop updAt a (sl.level + 1) 0 (sl.arena, sl.header)
        let level2 := shrinkLevel st.2 sl.level
        (true, { sl with arena := st.1, header := st.2, level := level2 })
      else (false, sl)
    | none => (false, sl)
  | none => (false, sl)

/-- The forward walk at a given level shared by `get_all_items` (lines
183–195, level 0), `__len__` (lines 197–206) and `display` (lines 174–180):
collect the `(key, value)` pairs of the nodes reachable from the header at
level `i`. -/
def walkPairs (arena : List SkipNode) (i : Nat) :
    Nat → Option Nat → List (Int × Option Int)
  | 0, _ => []
  | _ + 1, none => []
  | fuel + 1, some a =>
    match arena[a]? with
    | none => []
    | some nd => (nd.key, nd.value) :: walkPairs arena i fuel (nd.forward.getD i none)

/-- `SkipList.get_all_items` (lines 183–195): the level-0 walk from the
header. -/
def get_all_items (sl : SkipList) : List (Int × Option Int) :=
  walkPairs sl.arena 0 (sl.arena.length + 1) (sl.header.getD 0 none)

/-- `SkipList.__len__` (lines 197–206): counts the nodes of the level-0 walk. -/
def len (sl : SkipList) : Nat :=
  (walkPairs sl.arena 0 (sl.arena.length + 1) (sl.header.getD 0 none)).length

/-- `SkipList.__contains__` (lines 208–212): `self.search(key) is not None`. -/
def contains (sl : SkipList) (key : Int) : Bool :=
  (sl.search key).isSome

/-- The keys seen by the per-level forward walk from the header, as performed
by `display` (lines 174–180) and the visualization module (the spec's
`levelView(i)`). -/
def levelKeys (sl : SkipList) (i : Nat) : List Int :=
  (walkPairs sl.arena i (sl.arena.length + 1) (sl.header.getD i none)).map Prod.fst

end SkipList

/-- A public mutating operation on the container: an insert (with the stream
of `random.random()` draws it may consume) or a delete. -/
inductive Op where
  | ins (key : Int) (value : Option Int) (draws : Nat → Rat)
  | del (key : Int)

/-- Apply one operation. -/
def applyOp (sl : SkipList) : Op → SkipList
  | Op.ins k v d => sl.insert k v d
  | Op.del k => (sl.delete k).2

/-- Run a sequence of operations. -/
def exec (sl : SkipList) : List Op → SkipList
  | [] => sl
  | op :: ops => exec (applyOp sl op) ops

/-- The net effect of an operation sequence on one key: `some v` when the
most recent insert of `k` stored `v` and `k` was not deleted afterwards,
starting from status `acc`. -/
def lastWrite (k : Int) : List Op → Option (Option Int) → Option (Option Int)
  | [], acc => acc
  | Op.ins k2 v _ :: ops, acc => lastWrite k ops (if k2 = k then some v else acc)
  | Op.del k2 :: ops, acc => lastWrite k ops (if k2 = k then none else acc)

open SkipList

/-! ## Proof infrastructure: chain segments and the well-formedness invariant -/

/-- Arena node `a` exists (Python: the reference is not dangling). -/
def alive (arena : List SkipNode) (a : Nat) : Bool :=
  (arena[a]?).isSome

/-- The level-`i` forward pointer of arena node `a`. -/
def fwdN (arena : List SkipNode) (a : Nat) (i : Nat) : Option Nat :=
  match arena[a]? with
  | some nd => nd.forward.getD i none
  | none => none

/-- `chainSegB arena i p l q = true` states that starting from the pointer
`p`, following the level-`i` forward links visits exactly the arena nodes of
`l` in order and ends with the pointer `q`. -/
def chainSegB (arena : List SkipNode) (i : Nat) :
    Option Nat → List Nat → Option Nat → Bool
  | p, [], q => decide (p = q)
  | p, a :: l, q =>
    decide (p = some a) && alive arena a && chainSegB arena i (fwdN arena a i) l q

/-- Abstract version of the inner advance loop: walk the listed chain while
the next key is below `key`, returning the last position visited. -/
def advModel (arena : List SkipNode) (key : Int) :
    Option Nat → List Nat → Option Nat
  | cur, [] => cur
  | cur, a :: l => if nkey arena a < key then advModel arena key (some a) l else cur

/-- The last element of `l` as a position, or `cur` when `l` is empty. -/
def lastOr (cur : Option Nat) (l : List Nat) : Option Nat :=
  match l.getLast? with
  | some a => some a
  | none => cur

/-- Well-formedness of a raw state `(arena, header, max_level, level)` with
respect to the ordered list `ids` of reachable node indices: the header array
has `max_level + 1` slots, the current level is within bounds, keys strictly
increase along `ids`, every reachable node exists and has between `1` and
`max_level + 1` forward slots, the level-`i` chain from the header is exactly
the subsequence of `ids` whose nodes have more than `i` forward slots, and
the header has no forward link above the current level while (for a nonempty
structure) it does have one at the current level. -/
structure WFon (arena : List SkipNode) (header : List (Option Nat))
    (ml lvl : Nat) (ids : List Nat) : Prop where
  hlen : header.length = ml + 1
  hlvl : lvl ≤ ml
  hsort : ids.Pairwise (fun a b => nkey arena a < nkey arena b)
  hnode : ∀ a ∈ ids, alive arena a = true ∧ 1 ≤ nlen arena a ∧ nlen arena a ≤ ml + 1
  hchain : ∀ i < ml + 1,
    chainSegB arena i (header.getD i none)
      (ids.filter (fun a => decide (i < nlen arena a))) none = true
  habove : ∀ i < ml + 1, lvl < i → header.getD i none = none
  htop : 0 < lvl → header.getD lvl none ≠ none

/-- Well-formedness of a `SkipList` state with a given reachable-id list. -/
def WFwith (sl : SkipList) (ids : List Nat) : Prop :=
  WFon sl.arena sl.header sl.max_level sl.level ids

/-- A well-formed `SkipList` state (every state reachable from `init` by the
public operations is well-formed; proved below). -/
def WF (sl : SkipList) : Prop :=
  ∃ ids, WFwith sl ids

/-- The level-`i` chain of a well-formed state, as a list of arena indices:
the nodes of `ids` having more than `i` forward slots. -/
def chainL (arena : List SkipNode) (ids : List Nat) (i : Nat) : List Nat :=
  ids.filter (fun a => decide (i < nlen arena a))

/-- The level-`i` predecessor position of `key`: the last node of the
level-`i` chain whose key is below `key`, or the header (`none`). -/
def predL (arena : List SkipNode) (key : Int) (ids : List Nat) (i : Nat) : Option Nat :=
  ((chainL arena ids i).filter (fun a => decide (nkey arena a < key))).getLast?

/-- The association status of key `k` in an item list: `some v` when the
first entry with key `k` carries value `v`, `none` when no entry does. -/
def statusOf (l : List (Int × Option Int)) (k : Int) : Option (Option Int) :=
  (l.find? (fun e => decide (e.1 = k))).map Prod.snd

/-- Pointwise equality of the node data (existence, key, value, number of
forward slots) and container lengths of two raw states; forward-pointer
contents may differ. -/
def nodesEq (st st2 : List SkipNode × List (Option Nat)) : Prop :=
  st2.1.length = st.1.length ∧ st2.2.length = st.2.length ∧
    ∀ a, alive st2.1 a = alive st.1 a ∧ nkey st2.1 a = nkey st.1 a ∧
      nvalue st2.1 a = nvalue st.1 a ∧ nlen st2.1 a = nlen st.1 a

/-- The two raw states agree on every level-`j` forward slot (header and all
nodes). -/
def slotsEq (st st2 : List SkipNode × List (Option Nat)) (j : Nat) : Prop :=
  st2.2.getD j none = st.2.getD j none ∧ ∀ a, fwdN st2.1 a j = fwdN st.1 a j

/-! ## Basic lemmas -/

theorem random_level_loop_le (p : Rat) (ml : Nat) (draws : Nat → Rat) :
    ∀ count idx level, level ≤ ml →
      SkipList.random_level_loop p ml draws count idx level ≤ ml := by
  intro count
  induction count with
  | zero => intro idx level h; simpa [SkipList.random_level_loop] using h
  | succ c ih =>
    intro idx level h
    simp only [SkipList.random_level_loop]
    split
    · rename_i hc
      exact ih (idx + 1) (level + 1) hc.2
    · exact h

theorem random_level_le (sl : SkipList) (draws : Nat → Rat) :
    sl.random_level draws ≤ sl.max_level :=
  random_level_loop_le sl.p sl.max_level draws sl.max_level 0 0 (Nat.zero_le _)

theorem shrinkLevel_le (header : List (Option Nat)) :
    ∀ l, SkipList.shrinkLevel header l ≤ l := by
  intro l
  induction l with
  | zero => simp [SkipList.shrinkLevel]
  | succ n ih =>
    simp only [SkipList.shrinkLevel]
    split
    · exact Nat.le_trans ih (Nat.le_succ n)
    · exact Nat.le_refl _

theorem shrinkLevel_above (header : List (Option Nat)) :
    ∀ l i, SkipList.shrinkLevel header l < i → i ≤ l → header.getD i none = none := by
  intro l
  induction l with
  | zero => intro i h1 h2; omega
  | succ n ih =>
    intro i h1 h2
    simp only [SkipList.shrinkLevel] at h1
    split at h1
    · rename_i hnone
      rcases Nat.lt_or_ge i (n + 1) with hi | hi
      · exact ih i h1 (by omega)
      · have : i = n + 1 := by omega
        rwa [this]
    · omega

theorem shrinkLevel_pos (header : List (Option Nat)) :
    ∀ l, 0 < SkipList.shrinkLevel header l →
      header.getD (SkipList.shrinkLevel header l) none ≠ none := by
  intro l
  induction l with
  | zero => intro h; simp [SkipList.shrinkLevel] at h
  | succ n ih =>
    intro h
    simp only [SkipList.shrinkLevel] at h ⊢
    split at h
    · rename_i hnone
      rw [if_pos hnone]
      exact ih h
    · rename_i hne
      rw [if_neg hne]
      exact hne

theorem chainSegB_nil_iff (arena : List SkipNode) (i : Nat) (p q : Option Nat) :
    chainSegB arena i p [] q = true ↔ p = q := by
  simp [chainSegB]

theorem chainSegB_cons_iff (arena : List SkipNode) (i : Nat) (p q : Option Nat)
    (a : Nat) (l : List Nat) :
    chainSegB arena i p (a :: l) q = true ↔
      p = some a ∧ alive arena a = true ∧
        chainSegB arena i (fwdN arena a i) l q = true := by
  simp [chainSegB, Bool.and_eq_true, and_assoc]

theorem chainSegB_append_iff (arena : List SkipNode) (i : Nat) :
    ∀ (l1 l2 : List Nat) (p q : Option Nat),
      chainSegB arena i p (l1 ++ l2) q = true ↔
        ∃ r, chainSegB arena i p l1 r = true ∧ chainSegB arena i r l2 q = true := by
  intro l1
  induction l1 with
  | nil =>
    intro l2 p q
    constructor
    · intro h; exact ⟨p, by simp [chainSegB], h⟩
    · rintro ⟨r, hr1, hr2⟩
      rw [chainSegB_nil_iff] at hr1
      simpa [hr1] using hr2
  | cons a l1 ih =>
    intro l2 p q
    simp only [List.cons_append, chainSegB_cons_iff, ih]
    constructor
    · rintro ⟨hp, ha, r, h1, h2⟩
      exact ⟨r, ⟨hp, ha, h1⟩, h2⟩
    · rintro ⟨r, ⟨hp, ha, h1⟩, h2⟩
      exact ⟨hp, ha, r, h1, h2⟩

theorem chainSegB_congr (arena arena2 : List SkipNode) (i : Nat) :
    ∀ (l : List Nat) (p q : Option Nat),
      (∀ a ∈ l, alive arena2 a = alive arena a ∧ fwdN arena2 a i = fwdN arena a i) →
      (chainSegB arena2 i p l q = true ↔ chainSegB arena i p l q = true) := by
  intro l
  induction l with
  | nil => intro p q _; simp [chainSegB]
  | cons a l ih =>
    intro p q hcong
    have ha := hcong a (by simp)
    rw [chainSegB_cons_iff, chainSegB_cons_iff, ha.1, ha.2]
    rw [ih _ _ (fun b hb => hcong b (by simp [hb]))]

theorem chainSegB_alive (arena : List SkipNode) (i : Nat) :
    ∀ (l : List Nat) (p q : Option Nat), chainSegB arena i p l q = true →
      ∀ a ∈ l, alive arena a = true := by
  intro l
  induction l with
  | nil => intro p q _ a ha; simp at ha
  | cons b l ih =>
    intro p q h a ha
    rw [chainSegB_cons_iff] at h
    rcases List.mem_cons.mp ha with rfl | ha2
    · exact h.2.1
    · exact ih _ _ h.2.2 a ha2

theorem walkPairs_eq (arena : List SkipNode) (i : Nat) :
    ∀ (l : List Nat) (p : Option Nat), chainSegB arena i p l none = true →
      ∀ fuel, l.length ≤ fuel →
        walkPairs arena i fuel p = l.map (fun a => (nkey arena a, nvalue arena a)) := by
  intro l
  induction l with
  | nil =>
    intro p h fuel _
    rw [chainSegB_nil_iff] at h
    subst h
    cases fuel <;> simp [walkPairs]
  | cons a l ih =>
    intro p h fuel hfuel
    rw [chainSegB_cons_iff] at h
    obtain ⟨rfl, ha, hrest⟩ := h
    obtain ⟨nd, hnd⟩ := Option.isSome_iff_exists.mp ha
    cases fuel with
    | zero => simp at hfuel
    | succ f =>
      have hf : l.length ≤ f := by simpa using hfuel
      simp only [walkPairs, hnd]
      have hfwd : fwdN arena a i = nd.forward.getD i none := by
        simp [fwdN, hnd]
      rw [hfwd] at hrest
      rw [ih _ hrest f hf]
      simp [nkey, nvalue, hnd]

theorem advance_eq_advModel (arena : List SkipNode) (header : List (Option Nat))
    (key : Int) (i : Nat) :
    ∀ (l : List Nat) (cur : Option Nat),
      chainSegB arena i (fwdAt arena header cur i) l none = true →
      ∀ fuel, l.length < fuel →
        advance arena header key i fuel cur = advModel arena key cur l := by
  intro l
  induction l with
  | nil =>
    intro cur h fuel hfuel
    rw [chainSegB_nil_iff] at h
    cases fuel with
    | zero => omega
    | succ f => simp [advance, h, advModel]
  | cons a l ih =>
    intro cur h fuel hfuel
    rw [chainSegB_cons_iff] at h
    obtain ⟨hp, ha, hrest⟩ := h
    obtain ⟨nd, hnd⟩ := Option.isSome_iff_exists.mp ha
    cases fuel with
    | zero => omega
    | succ f =>
      have hf : l.length < f := by simpa using hfuel
      simp only [advance, hp, hnd, advModel]
      have hkey : nkey arena a = nd.key := by simp [nkey, hnd]
      by_cases hlt : nd.key < key
      · rw [if_pos hlt, if_pos (by rw [hkey]; exact hlt)]
        apply ih (some a) _ f hf
        have : fwdAt arena header (some a) i = fwdN arena a i := by
          simp [fwdAt, fwdN, hnd]
        rwa [this]
      · rw [if_neg hlt, if_neg (by rw [hkey]; exact hlt)]

theorem advModel_append (arena : List SkipNode) (key : Int) :
    ∀ (l1 l2 : List Nat) (cur : Option Nat),
      (∀ a ∈ l1, nkey arena a < key) →
      (∀ b ∈ l2, ¬ nkey arena b < key) →
      advModel arena key cur (l1 ++ l2) = lastOr cur l1 := by
  intro l1
  induction l1 with
  | nil =>
    intro l2 cur _ h2
    cases l2 with
    | nil => simp [advModel, lastOr]
    | cons b l2 =>
      simp only [List.nil_append, advModel, lastOr]
      rw [if_neg (h2 b (by simp))]
      simp [List.getLast?]
  | cons a l1 ih =>
    intro l2 cur h1 h2
    simp only [List.cons_append, advModel, List.append_eq]
    rw [if_pos (h1 a (by simp))]
    rw [ih l2 (some a) (fun x hx => h1 x (by simp [hx])) h2]
    cases l1 with
    | nil => simp [lastOr, List.getLast?]
    | cons c l1 =>
      have hs : ((c :: l1).getLast?).isSome := by
        rw [List.getLast?_isSome]
        simp
      rcases hx : (c :: l1).getLast? with _ | x
      · rw [hx] at hs; simp at hs
      · simp [lastOr, hx]

theorem lastOr_none (l : List Nat) : lastOr none l = l.getLast? := by
  cases h : l.getLast? <;> simp [lastOr, h]

theorem pairwise_filter_append {α : Type} (R : α → α → Prop) (p : α → Bool)
    (hdc : ∀ a b, R a b → p b = true → p a = true) :
    ∀ l : List α, l.Pairwise R → l = l.filter p ++ l.filter (fun a => !(p a)) := by
  intro l
  induction l with
  | nil => simp
  | cons a l ih =>
    intro hp
    rw [List.pairwise_cons] at hp
    by_cases hpa : p a = true
    · have e1 : List.filter p (a :: l) = a :: List.filter p l := by
        simp [List.filter_cons, hpa]
      have e2 : List.filter (fun x => !(p x)) (a :: l) = List.filter (fun x => !(p x)) l := by
        simp [List.filter_cons, hpa]
      rw [e1, e2, List.cons_append]
      exact congrArg (List.cons a) (ih hp.2)
    · rw [Bool.not_eq_true] at hpa
      have hnone : ∀ b ∈ l, p b = false := by
        intro b hb
        by_contra hb2
        have hpb : p b = true := by
          cases hpb2 : p b
          · exact absurd hpb2 hb2
          · rfl
        have := hdc a b (hp.1 b hb) hpb
        rw [hpa] at this
        exact Bool.false_ne_true this
      have h1 : l.filter p = [] := by
        rw [List.filter_eq_nil_iff]
        intro b hb
        simp [hnone b hb]
      have h2 : l.filter (fun a => !(p a)) = l := by
        rw [List.filter_eq_self]
        intro b hb
        simp [hnone b hb]
      have e1 : List.filter p (a :: l) = [] := by
        simp [List.filter_cons, hpa, h1]
      have e2 : List.filter (fun x => !(p x)) (a :: l) = a :: List.filter (fun x => !(p x)) l := by
        simp [List.filter_cons, hpa]
      rw [e1, e2, h2]
      simp

theorem nodup_of_pairwise_keys (arena : List SkipNode) (l : List Nat)
    (h : l.Pairwise (fun a b => nkey arena a < nkey arena b)) : l.Nodup := by
  refine h.imp ?_
  intro a b hab
  intro hEq
  subst hEq
  exact lt_irrefl _ hab

theorem length_le_of_nodup_alive (arena : List SkipNode) (l : List Nat)
    (hnd : l.Nodup) (hal : ∀ a ∈ l, alive arena a = true) :
    l.length ≤ arena.length := by
  have hsub : l.toFinset ⊆ Finset.range arena.length := by
    intro a ha
    rw [List.mem_toFinset] at ha
    rw [Finset.mem_range]
    have := hal a ha
    unfold alive at this
    rw [Option.isSome_iff_exists] at this
    obtain ⟨nd, hnd2⟩ := this
    exact (List.getElem?_eq_some.mp hnd2).1
  calc l.length = l.toFinset.card := (List.toFinset_card_of_nodup hnd).symm
    _ ≤ (Finset.range arena.length).card := Finset.card_le_card hsub
    _ = arena.length := Finset.card_range _

theorem chainSegB_suffix (arena : List SkipNode) (i : Nat) (X Y : List Nat)
    (c : Nat) (p q : Option Nat)
    (h : chainSegB arena i p (X ++ c :: Y) q = true) :
    chainSegB arena i (fwdN arena c i) Y q = true := by
  rw [chainSegB_append_iff] at h
  obtain ⟨r, _, h2⟩ := h
  rw [chainSegB_cons_iff] at h2
  exact h2.2.2

/-- The inner advance loop, run on the level-`i` chain `l` (with sorted keys)
from a position that is either the header or a node of the chain whose key is
below the target, stops at the last node of the chain whose key is below the
target (as a position: the header if there is none). -/
theorem advance_pred (arena : List SkipNode) (header : List (Option Nat))
    (key : Int) (i : Nat) (l : List Nat) (cur : Option Nat) (fuel : Nat)
    (hchain : chainSegB arena i (header.getD i none) l none = true)
    (hsort : l.Pairwise (fun a b => nkey arena a < nkey arena b))
    (hfuel : l.length < fuel)
    (hcur : cur = none ∨ ∃ c, cur = some c ∧ c ∈ l ∧ nkey arena c < key) :
    advance arena header key i fuel cur =
      (l.filter (fun a => decide (nkey arena a < key))).getLast? := by
  have hdc : ∀ a b, nkey arena a < nkey arena b →
      decide (nkey arena b < key) = true → decide (nkey arena a < key) = true := by
    intro a b hab hb
    rw [decide_eq_true_iff] at hb ⊢
    exact lt_trans hab hb
  rcases hcur with rfl | ⟨c, rfl, hcl, hck⟩
  · have hstart : fwdAt arena header none i = header.getD i none := rfl
    rw [advance_eq_advModel arena header key i l none (by rw [hstart]; exact hchain) fuel hfuel]
    conv_lhs => rw [pairwise_filter_append _ _ hdc l hsort]
    rw [advModel_append]
    · exact lastOr_none _
    · intro a ha
      rw [List.mem_filter] at ha
      exact decide_eq_true_iff.mp ha.2
    · intro b hb
      rw [List.mem_filter] at hb
      simp only [Bool.not_eq_true', decide_eq_false_iff_not] at hb
      exact hb.2
  · obtain ⟨X, Y, hXY⟩ := List.append_of_mem hcl
    subst hXY
    have hchainY : chainSegB arena i (fwdN arena c i) Y none = true :=
      chainSegB_suffix arena i X Y c _ none hchain
    have hsortY : Y.Pairwise (fun a b => nkey arena a < nkey arena b) :=
      hsort.sublist (by simp)
    have hstart : fwdAt arena header (some c) i = fwdN arena c i := by
      simp [fwdAt, fwdN]
    have hfuelY : Y.length < fuel := by
      have : Y.length ≤ (X ++ c :: Y).length := by simp; omega
      omega
    rw [advance_eq_advModel arena header key i Y (some c) (by rw [hstart]; exact hchainY) fuel hfuelY]
    conv_lhs => rw [pairwise_filter_append _ _ hdc Y hsortY]
    rw [advModel_append]
    · -- `lastOr (some c) (Y.filter (< key)) = ((X ++ c :: Y).filter (< key)).getLast?`
      have hXfilter : (X ++ c :: Y).filter (fun a => decide (nkey arena a < key)) =
          X.filter (fun a => decide (nkey arena a < key)) ++
            c :: Y.filter (fun a => decide (nkey arena a < key)) := by
        rw [List.filter_append, List.filter_cons, if_pos (by simp [hck])]
      rw [hXfilter, List.getLast?_append_cons]
      cases hY : Y.filter (fun a => decide (nkey arena a < key)) with
      | nil => simp [lastOr, List.getLast?]
      | cons d l2 =>
        have hs : ((d :: l2).getLast?).isSome := by
          rw [List.getLast?_isSome]; simp
        rcases hx : (d :: l2).getLast? with _ | x
        · rw [hx] at hs; simp at hs
        · rw [List.getLast?_cons_cons, hx]
          simp [lastOr, hx]
    · intro a ha
      rw [List.mem_filter] at ha
      exact decide_eq_true_iff.mp ha.2
    · intro b hb
      rw [List.mem_filter] at hb
      simp only [Bool.not_eq_true', decide_eq_false_iff_not] at hb
      exact hb.2

/-! ## Consequences of well-formedness -/

theorem chainSegB_start_none (arena : List SkipNode) (i : Nat) (l : List Nat)
    (q : Option Nat) (h : chainSegB arena i none l q = true) : l = [] ∧ q = none := by
  cases l with
  | nil => rw [chainSegB_nil_iff] at h; exact ⟨rfl, h.symm⟩
  | cons a l =>
    rw [chainSegB_cons_iff] at h
    exact absurd h.1 (by simp)

namespace WFfacts

variable {arena : List SkipNode} {header : List (Option Nat)} {ml lvl : Nat}
  {ids : List Nat}

theorem header_none_above (wf : WFon arena header ml lvl ids) :
    ∀ i, lvl < i → header.getD i none = none := by
  intro i hi
  by_cases hml : i < ml + 1
  · exact wf.habove i hml hi
  · exact List.getD_eq_default header none (by rw [wf.hlen]; omega)

theorem ids_nodup (wf : WFon arena header ml lvl ids) : ids.Nodup :=
  nodup_of_pairwise_keys arena ids wf.hsort

theorem chainL_sublist (arena : List SkipNode) (ids : List Nat) (i : Nat) :
    (chainL arena ids i).Sublist ids :=
  List.filter_sublist ids

theorem chainL_sorted (wf : WFon arena header ml lvl ids) (i : Nat) :
    (chainL arena ids i).Pairwise (fun a b => nkey arena a < nkey arena b) :=
  wf.hsort.sublist (chainL_sublist arena ids i)

theorem chainL_nodup (wf : WFon arena header ml lvl ids) (i : Nat) :
    (chainL arena ids i).Nodup :=
  (ids_nodup wf).sublist (chainL_sublist arena ids i)

theorem chainL_length (wf : WFon arena header ml lvl ids) (i : Nat) :
    (chainL arena ids i).length ≤ arena.length := by
  have h1 : (chainL arena ids i).length ≤ ids.length :=
    (chainL_sublist arena ids i).length_le
  have h2 : ids.length ≤ arena.length :=
    length_le_of_nodup_alive arena ids (ids_nodup wf)
      (fun a ha => (wf.hnode a ha).1)
  omega

theorem chainL_above_ml (wf : WFon arena header ml lvl ids) (i : Nat)
    (hi : ml < i) : chainL arena ids i = [] := by
  unfold chainL
  rw [List.filter_eq_nil_iff]
  intro a ha
  have := (wf.hnode a ha).2.2
  simp only [decide_eq_true_iff]
  omega

theorem chain_all (wf : WFon arena header ml lvl ids) (i : Nat) :
    chainSegB arena i (header.getD i none) (chainL arena ids i) none = true := by
  by_cases hml : i < ml + 1
  · exact wf.hchain i hml
  · have h1 : chainL arena ids i = [] := chainL_above_ml wf i (by omega)
    have h2 : header.getD i none = none :=
      List.getD_eq_default header none (by rw [wf.hlen]; omega)
    rw [h1, h2, chainSegB_nil_iff]

theorem chainL_above_lvl (wf : WFon arena header ml lvl ids) (i : Nat)
    (hi : lvl < i) : chainL arena ids i = [] := by
  have hchain := chain_all wf i
  rw [header_none_above wf i hi] at hchain
  exact (chainSegB_start_none arena i _ none hchain).1

theorem chainL_mono (arena : List SkipNode) (ids : List Nat) (i : Nat) :
    ∀ a ∈ chainL arena ids (i + 1), a ∈ chainL arena ids i := by
  intro a ha
  unfold chainL at ha ⊢
  rw [List.mem_filter] at ha ⊢
  refine ⟨ha.1, ?_⟩
  have := decide_eq_true_iff.mp ha.2
  simp only [decide_eq_true_iff]
  omega

theorem descend_length (arena : List SkipNode) (header : List (Option Nat))
    (key : Int) (fuel : Nat) :
    ∀ i cur, (descend arena header key fuel i cur).length = i + 1 := by
  intro i
  induction i with
  | zero => intro cur; simp [descend]
  | succ n ihn => intro cur; simp [descend, ihn]

theorem predL_cases (arena : List SkipNode) (key : Int) (ids : List Nat) (i : Nat) :
    predL arena key ids i = none ∨
      ∃ c, predL arena key ids i = some c ∧ c ∈ chainL arena ids i ∧
        nkey arena c < key := by
  unfold predL
  cases hx : ((chainL arena ids i).filter (fun a => decide (nkey arena a < key))).getLast? with
  | none => exact Or.inl rfl
  | some c =>
    refine Or.inr ⟨c, rfl, ?_⟩
    have hcmem : c ∈ (chainL arena ids i).filter (fun a => decide (nkey arena a < key)) :=
      List.mem_of_mem_getLast? (by rw [hx]; rfl)
    rw [List.mem_filter] at hcmem
    exact ⟨hcmem.1, decide_eq_true_iff.mp hcmem.2⟩

/-- The descent computes the predecessor of `key` at every level: entry `j`
of the update vector is `predL … j`. -/
theorem descend_spec (wf : WFon arena header ml lvl ids) (key : Int)
    (fuel : Nat) (hfuel : arena.length < fuel) :
    ∀ i, i ≤ lvl → ∀ cur,
      (cur = none ∨ ∃ c, cur = some c ∧ c ∈ chainL arena ids i ∧ nkey arena c < key) →
      ∀ j, j ≤ i →
        (descend arena header key fuel i cur).getD j none = predL arena key ids j := by
  intro i
  induction i with
  | zero =>
    intro _ cur hcur j hj
    interval_cases j
    show (advance arena header key 0 fuel cur) = predL arena key ids 0
    exact advance_pred arena header key 0 (chainL arena ids 0) cur fuel
      (chain_all wf 0) (chainL_sorted wf 0)
      (by have := chainL_length wf 0; omega) hcur
  | succ i ih =>
    intro hi cur hcur j hj
    have hadv : advance arena header key (i + 1) fuel cur = predL arena key ids (i + 1) :=
      advance_pred arena header key (i + 1) (chainL arena ids (i + 1)) cur fuel
        (chain_all wf (i + 1)) (chainL_sorted wf (i + 1))
        (by have := chainL_length wf (i + 1); omega) hcur
    have hcur2 : predL arena key ids (i + 1) = none ∨
        ∃ c, predL arena key ids (i + 1) = some c ∧ c ∈ chainL arena ids i ∧
          nkey arena c < key := by
      rcases predL_cases arena key ids (i + 1) with h | ⟨c, hc, hmem, hk⟩
      · exact Or.inl h
      · exact Or.inr ⟨c, hc, chainL_mono arena ids i c hmem, hk⟩
    show (descend arena header key fuel i _ ++ [_]).getD j none = _
    rw [hadv]
    have hlen : (descend arena header key fuel i (predL arena key ids (i + 1))).length = i + 1 :=
      descend_length arena header key fuel i _
    by_cases hji : j ≤ i
    · rw [List.getD_append _ _ _ j (by omega)]
      exact ih (by omega) (predL arena key ids (i + 1)) hcur2 j hji
    · have hj1 : j = i + 1 := by omega
      subst hj1
      rw [List.getD_append_right _ _ _ (i + 1) (by omega), hlen]
      simp

/-- With the standard fuel, the update vector built by the descent from the
top level reads `predL … j` at every index `j` (indices above the current
level read the list default `none`, which is also `predL` there since those
chains are empty). -/
theorem descend_getD (wf : WFon arena header ml lvl ids) (key : Int) :
    ∀ j, (descend arena header key (arena.length + 1) lvl none).getD j none =
      predL arena key ids j := by
  intro j
  by_cases hj : j ≤ lvl
  · exact descend_spec wf key (arena.length + 1) (by omega) lvl (le_refl _) none
      (Or.inl rfl) j hj
  · have hlen : (descend arena header key (arena.length + 1) lvl none).length = lvl + 1 :=
      descend_length arena header key (arena.length + 1) lvl none
    have h1 : (descend arena header key (arena.length + 1) lvl none).getD j none = none :=
      List.getD_eq_default _ none (by omega)
    have h2 : predL arena key ids j = none := by
      unfold predL
      rw [chainL_above_lvl wf j (by omega)]
      rfl
    rw [h1, h2]

end WFfacts

namespace WFfacts

variable {arena : List SkipNode} {header : List (Option Nat)} {ml lvl : Nat}
  {ids : List Nat}

/-- Following the forward pointer of the level-`i` predecessor reaches the
first node of the level-`i` chain whose key is not below the target. -/
theorem fwd_predL (wf : WFon arena header ml lvl ids) (key : Int) (i : Nat) :
    fwdAt arena header (predL arena key ids i) i =
      ((chainL arena ids i).filter (fun a => !decide (nkey arena a < key))).head? := by
  have hdc : ∀ a b, nkey arena a < nkey arena b →
      decide (nkey arena b < key) = true → decide (nkey arena a < key) = true := by
    intro a b hab hb
    rw [decide_eq_true_iff] at hb ⊢
    exact lt_trans hab hb
  have hpart := pairwise_filter_append _ _ hdc (chainL arena ids i) (chainL_sorted wf i)
  have hchain := chain_all wf i
  rw [hpart] at hchain
  rw [chainSegB_append_iff] at hchain
  obtain ⟨r, hA, hB⟩ := hchain
  have hr : r = ((chainL arena ids i).filter (fun a => !decide (nkey arena a < key))).head? := by
    cases hBl : (chainL arena ids i).filter (fun a => !decide (nkey arena a < key)) with
    | nil => rw [hBl] at hB; rw [chainSegB_nil_iff] at hB; simp [hB]
    | cons b B1 =>
      rw [hBl] at hB; rw [chainSegB_cons_iff] at hB; simp [hB.1]
  rcases List.eq_nil_or_concat
      ((chainL arena ids i).filter (fun a => decide (nkey arena a < key))) with hAl | ⟨A0, c, hAl⟩
  · unfold predL
    rw [hAl] at hA ⊢
    rw [chainSegB_nil_iff] at hA
    show fwdAt arena header none i = _
    show header.getD i none = _
    rw [hA, hr]
  · unfold predL
    rw [hAl] at hA ⊢
    rw [List.concat_eq_append] at hA ⊢
    rw [chainSegB_append_iff] at hA
    obtain ⟨r0, _, hc⟩ := hA
    rw [chainSegB_cons_iff] at hc
    obtain ⟨_, halc, hcr⟩ := hc
    rw [chainSegB_nil_iff] at hcr
    have hgl : (A0 ++ [c]).getLast? = some c := by
      rw [List.getLast?_append_cons]
      rfl
    rw [hgl]
    show fwdN arena c i = _
    rw [hcr, hr]

theorem chainL_zero (wf : WFon arena header ml lvl ids) :
    chainL arena ids 0 = ids := by
  unfold chainL
  rw [List.filter_eq_self]
  intro a ha
  have := (wf.hnode a ha).2.1
  simp only [decide_eq_true_iff]
  omega

theorem walk_eq (wf : WFon arena header ml lvl ids) (i : Nat) (fuel : Nat)
    (hfuel : arena.length ≤ fuel) :
    walkPairs arena i fuel (header.getD i none) =
      (chainL arena ids i).map (fun a => (nkey arena a, nvalue arena a)) :=
  walkPairs_eq arena i (chainL arena ids i) (header.getD i none) (chain_all wf i)
    fuel (le_trans (chainL_length wf i) hfuel)

end WFfacts

open WFfacts

theorem wf_items {sl : SkipList} {ids : List Nat} (wf : WFwith sl ids) :
    sl.get_all_items = ids.map (fun a => (nkey sl.arena a, nvalue sl.arena a)) := by
  show walkPairs sl.arena 0 (sl.arena.length + 1) (sl.header.getD 0 none) = _
  rw [walk_eq wf 0 (sl.arena.length + 1) (by omega), chainL_zero wf]

theorem wf_len {sl : SkipList} {ids : List Nat} (wf : WFwith sl ids) :
    sl.len = ids.length := by
  show (walkPairs sl.arena 0 (sl.arena.length + 1) (sl.header.getD 0 none)).length = _
  rw [walk_eq wf 0 (sl.arena.length + 1) (by omega), chainL_zero wf, List.length_map]

theorem wf_levelKeys {sl : SkipList} {ids : List Nat} (wf : WFwith sl ids) (i : Nat) :
    sl.levelKeys i = (chainL sl.arena ids i).map (nkey sl.arena) := by
  show (walkPairs sl.arena i (sl.arena.length + 1) (sl.header.getD i none)).map Prod.fst = _
  rw [walk_eq wf i (sl.arena.length + 1) (by omega), List.map_map]
  rfl

/-- Elements of the not-below-`key` part: the head is the candidate node, and
every later element has key strictly above the head's key. -/
theorem filterGe_head {arena : List SkipNode} {ids : List Nat} (key : Int)
    (hsort : ids.Pairwise (fun a b => nkey arena a < nkey arena b))
    {b : Nat} {B1 : List Nat}
    (hB : ids.filter (fun a => !decide (nkey arena a < key)) = b :: B1) :
    ¬ nkey arena b < key ∧ ∀ x ∈ B1, nkey arena b < nkey arena x := by
  have hmem : b ∈ ids.filter (fun a => !decide (nkey arena a < key)) := by
    rw [hB]; simp
  rw [List.mem_filter] at hmem
  have hsortB : (b :: B1).Pairwise (fun a b => nkey arena a < nkey arena b) := by
    rw [← hB]
    exact hsort.sublist (List.filter_sublist ids)
  rw [List.pairwise_cons] at hsortB
  refine ⟨?_, hsortB.1⟩
  have := hmem.2
  simp only [Bool.not_eq_true', decide_eq_false_iff_not] at this
  exact this

/-- `statusOf` of the item list of a well-formed state, computed from the head
of the not-below-`key` part of `ids`. -/
theorem statusOf_items {sl : SkipList} {ids : List Nat} (wf : WFwith sl ids)
    (key : Int) :
    statusOf sl.get_all_items key =
      (match (ids.filter (fun a => !decide (nkey sl.arena a < key))).head? with
      | some b =>
        if nkey sl.arena b = key then some (nvalue sl.arena b) else none
      | none => none) := by
  rw [wf_items wf]
  unfold statusOf
  rw [List.find?_map]
  have hdc : ∀ a b, nkey sl.arena a < nkey sl.arena b →
      decide (nkey sl.arena b < key) = true → decide (nkey sl.arena a < key) = true := by
    intro a b hab hb
    rw [decide_eq_true_iff] at hb ⊢
    exact lt_trans hab hb
  have hpart := pairwise_filter_append _ _ hdc ids wf.hsort
  have hfindA : (ids.filter (fun a => decide (nkey sl.arena a < key))).find?
      ((fun e : Int × Option Int => decide (e.1 = key)) ∘
        (fun a => (nkey sl.arena a, nvalue sl.arena a))) = none := by
    rw [List.find?_eq_none]
    intro x hx
    rw [List.mem_filter] at hx
    have := decide_eq_true_iff.mp hx.2
    simp only [Function.comp_apply, decide_eq_true_iff]
    omega
  conv_lhs => rw [hpart]
  rw [List.find?_append, hfindA, Option.none_or]
  cases hB : ids.filter (fun a => !decide (nkey sl.arena a < key)) with
  | nil => simp
  | cons b B1 =>
    obtain ⟨hbge, habove⟩ := filterGe_head key wf.hsort hB
    by_cases hbk : nkey sl.arena b = key
    · rw [List.find?_cons_of_pos _ (by simp [hbk])]
      simp [hbk]
    · rw [List.find?_cons_of_neg _ (by simp [hbk])]
      have hfindB1 : B1.find?
          ((fun e : Int × Option Int => decide (e.1 = key)) ∘
            (fun a => (nkey sl.arena a, nvalue sl.arena a))) = none := by
        rw [List.find?_eq_none]
        intro x hx
        have h1 := habove x hx
        simp only [Function.comp_apply, decide_eq_true_iff]
        omega
      rw [hfindB1]
      simp only [List.head?_cons]
      rw [if_neg hbk]
      simp

/-- `search` on a well-formed state returns the stored value of the key when
present, `none` otherwise (a stored `None` value and the marker coincide). -/
theorem search_spec {sl : SkipList} {ids : List Nat} (wf : WFwith sl ids)
    (key : Int) :
    sl.search key = (statusOf sl.get_all_items key).getD none := by
  rw [show sl.search key = (match fwdAt sl.arena sl.header
      ((descend sl.arena sl.header key (sl.arena.length + 1) sl.level none).getD 0 none) 0 with
    | some a =>
      match sl.arena[a]? with
      | some nd => if nd.key = key then nd.value else none
      | none => none
    | none => none) from rfl]
  rw [WFfacts.descend_getD wf key 0, WFfacts.fwd_predL wf key 0,
    WFfacts.chainL_zero wf, statusOf_items wf key]
  cases hB : ids.filter (fun a => !decide (nkey sl.arena a < key)) with
  | nil => simp
  | cons b B1 =>
    have hmem : b ∈ ids := by
      have : b ∈ ids.filter (fun a => !decide (nkey sl.arena a < key)) := by
        rw [hB]; simp
      exact List.mem_of_mem_filter this
    have halive := (wf.hnode b hmem).1
    unfold alive at halive
    rw [Option.isSome_iff_exists] at halive
    obtain ⟨nd, hnd⟩ := halive
    have hkey : nkey sl.arena b = nd.key := by unfold nkey; rw [hnd]
    have hval : nvalue sl.arena b = nd.value := by unfold nvalue; rw [hnd]
    simp only [List.head?_cons, hnd]
    by_cases hbk : nd.key = key
    · rw [if_pos hbk, if_pos (by rw [hkey]; exact hbk)]
      simp [hval]
    · rw [if_neg hbk, if_neg (by rw [hkey]; exact hbk)]
      simp

/-! ## Effect of single forward-slot writes -/

theorem getD_set_self (l : List (Option Nat)) (i : Nat) (x : Option Nat)
    (h : i < l.length) : (l.set i x).getD i none = x := by
  rw [List.getD_eq_getElem?_getD, List.getElem?_set]
  simp [h]

theorem getD_set_ne (l : List (Option Nat)) (i j : Nat) (x : Option Nat)
    (h : i ≠ j) : (l.set i x).getD j none = l.getD j none := by
  rw [List.getD_eq_getElem?_getD, List.getElem?_set_ne h, ← List.getD_eq_getElem?_getD]

theorem nodesEq_refl (st : List SkipNode × List (Option Nat)) : nodesEq st st :=
  ⟨rfl, rfl, fun _ => ⟨rfl, rfl, rfl, rfl⟩⟩

theorem nodesEq_trans {st1 st2 st3 : List SkipNode × List (Option Nat)}
    (h12 : nodesEq st1 st2) (h23 : nodesEq st2 st3) : nodesEq st1 st3 := by
  obtain ⟨hl, hh, hn⟩ := h12
  obtain ⟨hl2, hh2, hn2⟩ := h23
  refine ⟨hl2.trans hl, hh2.trans hh, fun a => ?_⟩
  obtain ⟨a1, a2, a3, a4⟩ := hn a
  obtain ⟨b1, b2, b3, b4⟩ := hn2 a
  exact ⟨b1.trans a1, b2.trans a2, b3.trans a3, b4.trans a4⟩

theorem slotsEq_refl (st : List SkipNode × List (Option Nat)) (j : Nat) :
    slotsEq st st j :=
  ⟨rfl, fun _ => rfl⟩

theorem slotsEq_trans {st1 st2 st3 : List SkipNode × List (Option Nat)} {j : Nat}
    (h12 : slotsEq st1 st2 j) (h23 : slotsEq st2 st3 j) : slotsEq st1 st3 j :=
  ⟨h23.1.trans h12.1, fun a => (h23.2 a).trans (h12.2 a)⟩

theorem fwdAt_eq_fwdN (arena : List SkipNode) (header : List (Option Nat))
    (a : Nat) (j : Nat) : fwdAt arena header (some a) j = fwdN arena a j := rfl

theorem fwdAt_congr {st st2 : List SkipNode × List (Option Nat)} {j : Nat}
    (h : slotsEq st st2 j) (pos : Option Nat) :
    fwdAt st2.1 st2.2 pos j = fwdAt st.1 st.2 pos j := by
  cases pos with
  | none => exact h.1
  | some a => exact h.2 a

theorem setFwd_node_spec (st : List SkipNode × List (Option Nat)) (b i : Nat)
    (tgt : Option Nat) (nd : SkipNode) (hnd : st.1[b]? = some nd)
    (hi : i < nd.forward.length) :
    (setFwd st (some b) i tgt).2 = st.2 ∧
    fwdN (setFwd st (some b) i tgt).1 b i = tgt ∧
    (∀ a, a ≠ b → ∀ j, fwdN (setFwd st (some b) i tgt).1 a j = fwdN st.1 a j) ∧
    (∀ j, j ≠ i → fwdN (setFwd st (some b) i tgt).1 b j = fwdN st.1 b j) ∧
    nodesEq st (setFwd st (some b) i tgt) := by
  have hb : b < st.1.length := (List.getElem?_eq_some_iff.mp hnd).1
  have hset : setFwd st (some b) i tgt =
      (st.1.set b { nd with forward := nd.forward.set i tgt }, st.2) := by
    simp only [setFwd, hnd]
  rw [hset]
  have hget : ∀ a, (st.1.set b { nd with forward := nd.forward.set i tgt })[a]? =
      if b = a then some { nd with forward := nd.forward.set i tgt } else st.1[a]? := by
    intro a
    rw [List.getElem?_set]
    by_cases hba : b = a
    · subst hba
      simp [hb]
    · simp [hba]
  refine ⟨rfl, ?_, ?_, ?_, ?_⟩
  · unfold fwdN
    rw [hget b, if_pos rfl]
    exact getD_set_self _ _ _ hi
  · intro a ha j
    unfold fwdN
    rw [hget a, if_neg (by omega)]
  · intro j hj
    unfold fwdN
    rw [hget b, if_pos rfl, hnd]
    exact getD_set_ne _ _ _ _ (by omega)
  · refine ⟨by simp, rfl, fun a => ?_⟩
    unfold alive nkey nvalue nlen
    rw [hget a]
    by_cases hab : b = a
    · subst hab
      rw [if_pos rfl, hnd]
      simp
    · rw [if_neg hab]
      exact ⟨rfl, rfl, rfl, rfl⟩

theorem setFwd_header_spec (st : List SkipNode × List (Option Nat)) (i : Nat)
    (tgt : Option Nat) :
    (setFwd st none i tgt).1 = st.1 ∧ (setFwd st none i tgt).2 = st.2.set i tgt :=
  ⟨rfl, rfl⟩

/-- Effect of one splice iteration (insert, lines 126–127) on the raw state:
the new node's level-`i` pointer captures `update[i].forward[i]`, that slot is
retargeted to the new node, and nothing else changes. -/
theorem spliceStep_effect (updAt : Nat → Option Nat) (nid i : Nat)
    (st : List SkipNode × List (Option Nat))
    (ndN : SkipNode) (hndN : st.1[nid]? = some ndN) (hiN : i < ndN.forward.length)
    (hne : updAt i ≠ some nid)
    (hupd : ∀ b, updAt i = some b → ∃ ndb, st.1[b]? = some ndb ∧ i < ndb.forward.length) :
    nodesEq st (spliceStep updAt nid i st) ∧
    (∀ j, j ≠ i → slotsEq st (spliceStep updAt nid i st) j) ∧
    fwdN (spliceStep updAt nid i st).1 nid i = fwdAt st.1 st.2 (updAt i) i ∧
    (∀ a, a ≠ nid → updAt i ≠ some a →
      fwdN (spliceStep updAt nid i st).1 a i = fwdN st.1 a i) ∧
    (match updAt i with
     | some b => fwdN (spliceStep updAt nid i st).1 b i = some nid ∧
         (spliceStep updAt nid i st).2 = st.2
     | none => (spliceStep updAt nid i st).2 = st.2.set i (some nid)) := by
  have hstep : spliceStep updAt nid i st =
      setFwd (setFwd st (some nid) i (fwdAt st.1 st.2 (updAt i) i)) (updAt i) i (some nid) := rfl
  obtain ⟨hA2, hAnid, hAother, hAlev, hAeq⟩ :=
    setFwd_node_spec st nid i (fwdAt st.1 st.2 (updAt i) i) ndN hndN hiN
  set stA := setFwd st (some nid) i (fwdAt st.1 st.2 (updAt i) i) with hstA
  rw [hstep]
  cases hu : updAt i with
  | none =>
    rw [hu] at hAnid
    obtain ⟨hB1, hB2⟩ := setFwd_header_spec stA i (some nid)
    refine ⟨?_, ?_, ?_, ?_, ?_⟩
    · refine nodesEq_trans hAeq ⟨congrArg _ hB1, ?_, fun a => ?_⟩
      · rw [hB2, List.length_set]
      · rw [hB1]
        exact ⟨rfl, rfl, rfl, rfl⟩
    · intro j hj
      refine ⟨?_, fun a => ?_⟩
      · rw [hB2, getD_set_ne _ _ _ _ (by omega), hA2]
      · rw [hB1]
        by_cases ha : a = nid
        · subst ha; exact hAlev j hj
        · exact hAother a ha j
    · rw [hB1]
      exact hAnid
    · intro a ha _
      rw [hB1]
      exact hAother a ha i
    · rw [hB2, hA2]
  | some b =>
    rw [hu] at hAnid
    have hbne : b ≠ nid := by
      intro hcon
      rw [hcon] at hu
      exact hne hu
    obtain ⟨ndb, hndb, hib⟩ := hupd b hu
    have halb : alive stA.1 b = true := by
      rw [(hAeq.2.2 b).1]
      unfold alive
      rw [hndb]
      rfl
    unfold alive at halb
    rw [Option.isSome_iff_exists] at halb
    obtain ⟨ndb2, hndb2⟩ := halb
    have hib2 : i < ndb2.forward.length := by
      have h1 : nlen stA.1 b = nlen st.1 b := (hAeq.2.2 b).2.2.2
      unfold nlen at h1
      rw [hndb2, hndb] at h1
      simp only [] at h1
      omega
    obtain ⟨hB2, hBb, hBother, hBlev, hBeq⟩ :=
      setFwd_node_spec stA b i (some nid) ndb2 hndb2 hib2
    refine ⟨?_, ?_, ?_, ?_, ?_⟩
    · exact nodesEq_trans hAeq hBeq
    · intro j hj
      refine ⟨?_, fun a => ?_⟩
      · rw [hB2, hA2]
      · by_cases hab : a = b
        · subst hab
          rw [hBlev j hj]
          exact hAother a hbne j
        · rw [hBother a hab j]
          by_cases han : a = nid
          · subst han; exact hAlev j hj
          · exact hAother a han j
    · rw [hBother nid (fun hcon => hbne hcon.symm) i]
      exact hAnid
    · intro a ha hau
      have hab : a ≠ b := by
        intro hcon
        rw [hcon] at hau
        exact hau rfl
      rw [hBother a hab i]
      exact hAother a ha i
    · exact ⟨hBb, hB2.trans hA2⟩

theorem getD_set_congr (l1 l2 : List (Option Nat)) (j : Nat) (x : Option Nat)
    (hlen : l1.length = l2.length) :
    (l1.set j x).getD j none = (l2.set j x).getD j none := by
  by_cases h : j < l1.length
  · rw [getD_set_self _ _ _ h, getD_set_self _ _ _ (by omega)]
  · have h2 : ¬ j < l2.length := by omega
    rw [List.getD_eq_getElem?_getD, List.getD_eq_getElem?_getD,
      List.getElem?_set, List.getElem?_set]
    simp [h, h2]

/-- Effect of the whole splice loop of `insert` on the raw state, processing
levels `i … i + c - 1`: at each processed level the new node's pointer
captures the predecessor's old forward pointer and the predecessor (node or
header) now points at the new node; all other slots, and all node data, are
untouched. -/
theorem spliceLoop_effect (updAt : Nat → Option Nat) (nid : Nat) :
    ∀ (c i : Nat) (st : List SkipNode × List (Option Nat)),
    (∃ ndN, st.1[nid]? = some ndN ∧ ∀ j, i ≤ j → j < i + c → j < ndN.forward.length) →
    (∀ b j, i ≤ j → j < i + c → updAt j = some b →
      b ≠ nid ∧ ∃ ndb, st.1[b]? = some ndb ∧ j < ndb.forward.length) →
    nodesEq st (spliceLoop updAt nid c i st) ∧
    (∀ j, j < i ∨ i + c ≤ j → slotsEq st (spliceLoop updAt nid c i st) j) ∧
    (∀ j, i ≤ j → j < i + c →
      fwdN (spliceLoop updAt nid c i st).1 nid j = fwdAt st.1 st.2 (updAt j) j ∧
      (∀ a, a ≠ nid → updAt j ≠ some a →
        fwdN (spliceLoop updAt nid c i st).1 a j = fwdN st.1 a j) ∧
      (match updAt j with
       | some b => fwdN (spliceLoop updAt nid c i st).1 b j = some nid ∧
           (spliceLoop updAt nid c i st).2.getD j none = st.2.getD j none
       | none => (spliceLoop updAt nid c i st).2.getD j none =
           (st.2.set j (some nid)).getD j none)) := by
  intro c
  induction c with
  | zero =>
    intro i st _ _
    refine ⟨nodesEq_refl st, fun j _ => slotsEq_refl st j, fun j h1 h2 => ?_⟩
    omega
  | succ c ih =>
    intro i st hN hpreds
    obtain ⟨ndN, hndN, hrange⟩ := hN
    have hne_i : updAt i ≠ some nid := by
      intro hcon
      exact ((hpreds nid i (le_refl i) (by omega) hcon).1) rfl
    have hupd_i : ∀ b, updAt i = some b →
        ∃ ndb, st.1[b]? = some ndb ∧ i < ndb.forward.length :=
      fun b hb => (hpreds b i (le_refl i) (by omega) hb).2
    obtain ⟨S1, S2, S3, S4, S5⟩ :=
      spliceStep_effect updAt nid i st ndN hndN (hrange i (le_refl i) (by omega)) hne_i hupd_i
    set st1 := spliceStep updAt nid i st with hst1
    have hshow : spliceLoop updAt nid (c + 1) i st = spliceLoop updAt nid c (i + 1) st1 := rfl
    rw [hshow]
    have hN1 : ∃ ndN2, st1.1[nid]? = some ndN2 ∧
        ∀ j, i + 1 ≤ j → j < i + 1 + c → j < ndN2.forward.length := by
      have hal : alive st1.1 nid = alive st.1 nid := (S1.2.2 nid).1
      have hlen2 : nlen st1.1 nid = nlen st.1 nid := (S1.2.2 nid).2.2.2
      have : alive st.1 nid = true := by unfold alive; rw [hndN]; rfl
      rw [this] at hal
      unfold alive at hal
      rw [Option.isSome_iff_exists] at hal
      obtain ⟨ndN2, hndN2⟩ := hal
      refine ⟨ndN2, hndN2, fun j hj1 hj2 => ?_⟩
      unfold nlen at hlen2
      rw [hndN2, hndN] at hlen2
      simp only [] at hlen2
      have := hrange j (by omega) (by omega)
      omega
    have hpreds1 : ∀ b j, i + 1 ≤ j → j < i + 1 + c → updAt j = some b →
        b ≠ nid ∧ ∃ ndb, st1.1[b]? = some ndb ∧ j < ndb.forward.length := by
      intro b j hj1 hj2 hb
      obtain ⟨hbne, ndb, hndb, hjb⟩ := hpreds b j (by omega) (by omega) hb
      have hal : alive st1.1 b = alive st.1 b := (S1.2.2 b).1
      have hlen2 : nlen st1.1 b = nlen st.1 b := (S1.2.2 b).2.2.2
      have : alive st.1 b = true := by unfold alive; rw [hndb]; rfl
      rw [this] at hal
      unfold alive at hal
      rw [Option.isSome_iff_exists] at hal
      obtain ⟨ndb2, hndb2⟩ := hal
      refine ⟨hbne, ndb2, hndb2, ?_⟩
      unfold nlen at hlen2
      rw [hndb2, hndb] at hlen2
      simp only [] at hlen2
      omega
    obtain ⟨IH1, IH2, IH3⟩ := ih (i + 1) st1 hN1 hpreds1
    refine ⟨nodesEq_trans S1 IH1, ?_, ?_⟩
    · intro j hj
      have hji : j ≠ i := by omega
      exact slotsEq_trans (S2 j hji) (IH2 j (by omega))
    · intro j hj1 hj2
      by_cases hji : j = i
      · subst hji
        have hs : slotsEq st1 (spliceLoop updAt nid c (j + 1) st1) j :=
          IH2 j (by omega)
        refine ⟨?_, ?_, ?_⟩
        · rw [hs.2 nid]
          exact S3
        · intro a ha hau
          rw [hs.2 a]
          exact S4 a ha hau
        · cases hu : updAt j with
          | some b =>
            rw [hu] at S5
            exact ⟨by rw [hs.2 b]; exact S5.1, by rw [hs.1, S5.2]⟩
          | none =>
            rw [hu] at S5
            rw [hs.1, S5]
      · have hs : slotsEq st st1 j := S2 j hji
        obtain ⟨T1, T2, T3⟩ := IH3 j (by omega) (by omega)
        refine ⟨?_, ?_, ?_⟩
        · rw [T1]
          exact fwdAt_congr hs (updAt j)
        · intro a ha hau
          rw [T2 a ha hau]
          exact hs.2 a
        · cases hu : updAt j with
          | some b =>
            rw [hu] at T3
            exact ⟨T3.1, by rw [T3.2, hs.1]⟩
          | none =>
            rw [hu] at T3
            rw [T3]
            have hlen12 : st1.2.length = st.2.length := S1.2.1
            by_cases hfit : j < st.2.length
            · rw [getD_set_self _ _ _ (by omega), getD_set_self _ _ _ hfit]
            · rw [getD_set_congr st1.2 st.2 j (some nid) hlen12]

/-- Effect of the unlink loop of `delete` (lines 153–156), processing levels
`i … i + c - 1` with the break occurring at level `stop` (the hypothesis says
the predecessor points at the target exactly below `stop`): at each level
below `stop` the predecessor's pointer is retargeted to the target's forward
pointer; all other slots and all node data are untouched. -/
theorem unlinkLoop_effect (updAt : Nat → Option Nat) (cid : Nat) :
    ∀ (c i stop : Nat) (st : List SkipNode × List (Option Nat)),
    (∀ j, i ≤ j → j < i + c → (fwdAt st.1 st.2 (updAt j) j = some cid ↔ j < stop)) →
    (∀ b j, i ≤ j → j < i + c → j < stop → updAt j = some b →
      b ≠ cid ∧ ∃ ndb, st.1[b]? = some ndb ∧ j < ndb.forward.length) →
    nodesEq st (unlinkLoop updAt cid c i st) ∧
    (∀ j, j < i ∨ i + c ≤ j ∨ stop ≤ j → slotsEq st (unlinkLoop updAt cid c i st) j) ∧
    (∀ j, i ≤ j → j < i + c → j < stop →
      (∀ a, updAt j ≠ some a → fwdN (unlinkLoop updAt cid c i st).1 a j = fwdN st.1 a j) ∧
      (match updAt j with
       | some b => fwdN (unlinkLoop updAt cid c i st).1 b j = fwdN st.1 cid j ∧
           (unlinkLoop updAt cid c i st).2.getD j none = st.2.getD j none
       | none => (unlinkLoop updAt cid c i st).2.getD j none =
           (st.2.set j (fwdN st.1 cid j)).getD j none)) := by
  intro c
  induction c with
  | zero =>
    intro i stop st _ _
    refine ⟨nodesEq_refl st, fun j _ => slotsEq_refl st j, fun j h1 h2 _ => ?_⟩
    omega
  | succ c ih =>
    intro i stop st hcond hpreds
    have hshow : unlinkLoop updAt cid (c + 1) i st =
        if fwdAt st.1 st.2 (updAt i) i = some cid then
          unlinkLoop updAt cid c (i + 1) (setFwd st (updAt i) i (fwdN st.1 cid i))
        else st := rfl
    by_cases hstop : i < stop
    · have hcondi : fwdAt st.1 st.2 (updAt i) i = some cid :=
        (hcond i (le_refl i) (by omega)).mpr hstop
      rw [hshow, if_pos hcondi]
      set stB := setFwd st (updAt i) i (fwdN st.1 cid i) with hstB
      have hB : nodesEq st stB ∧ (∀ j, j ≠ i → slotsEq st stB j) ∧
          (∀ a, updAt i ≠ some a → fwdN stB.1 a i = fwdN st.1 a i) ∧
          (match updAt i with
           | some b => fwdN stB.1 b i = fwdN st.1 cid i ∧ stB.2 = st.2
           | none => stB.2 = st.2.set i (fwdN st.1 cid i)) := by
        cases hu : updAt i with
        | none =>
          rw [hstB, hu]
          obtain ⟨e1, e2⟩ := setFwd_header_spec st i (fwdN st.1 cid i)
          refine ⟨⟨congrArg _ e1, by rw [e2, List.length_set], fun a => by rw [e1]; exact ⟨rfl, rfl, rfl, rfl⟩⟩, ?_, ?_, e2⟩
          · intro j hj
            exact ⟨by rw [e2, getD_set_ne _ _ _ _ (by omega)], fun a => by rw [e1]⟩
          · intro a _
            rw [e1]
        | some b =>
          obtain ⟨hbne, ndb, hndb, hib⟩ :=
            hpreds b i (le_refl i) (by omega) hstop hu
          rw [hstB, hu]
          obtain ⟨e2, eb, eother, elev, eeq⟩ :=
            setFwd_node_spec st b i (fwdN st.1 cid i) ndb hndb hib
          refine ⟨eeq, ?_, ?_, eb, e2⟩
          · intro j hj
            refine ⟨by rw [e2], fun a => ?_⟩
            by_cases hab : a = b
            · subst hab; exact elev j hj
            · exact eother a hab j
          · intro a ha
            have hab : a ≠ b := by
              intro hcon
              rw [hcon] at ha
              exact ha rfl
            exact eother a hab i
      obtain ⟨hB1, hB2, hB3, hB4⟩ := hB
      have hcond1 : ∀ j, i + 1 ≤ j → j < i + 1 + c →
          (fwdAt stB.1 stB.2 (updAt j) j = some cid ↔ j < stop) := by
        intro j hj1 hj2
        rw [fwdAt_congr (hB2 j (by omega)) (updAt j)]
        exact hcond j (by omega) (by omega)
      have hpreds1 : ∀ b j, i + 1 ≤ j → j < i + 1 + c → j < stop → updAt j = some b →
          b ≠ cid ∧ ∃ ndb, stB.1[b]? = some ndb ∧ j < ndb.forward.length := by
        intro b j hj1 hj2 hj3 hb
        obtain ⟨hbne, ndb, hndb, hjb⟩ := hpreds b j (by omega) (by omega) hj3 hb
        have hal : alive stB.1 b = alive st.1 b := (hB1.2.2 b).1
        have hlen2 : nlen stB.1 b = nlen st.1 b := (hB1.2.2 b).2.2.2
        have : alive st.1 b = true := by unfold alive; rw [hndb]; rfl
        rw [this] at hal
        unfold alive at hal
        rw [Option.isSome_iff_exists] at hal
        obtain ⟨ndb2, hndb2⟩ := hal
        refine ⟨hbne, ndb2, hndb2, ?_⟩
        unfold nlen at hlen2
        rw [hndb2, hndb] at hlen2
        simp only [] at hlen2
        omega
      obtain ⟨IH1, IH2, IH3⟩ := ih (i + 1) stop stB hcond1 hpreds1
      refine ⟨nodesEq_trans hB1 IH1, ?_, ?_⟩
      · intro j hj
        have hji : j ≠ i := by omega
        exact slotsEq_trans (hB2 j hji) (IH2 j (by omega))
      · intro j hj1 hj2 hj3
        by_cases hji : j = i
        · subst hji
          have hs : slotsEq stB (unlinkLoop updAt cid c (j + 1) stB) j :=
            IH2 j (by omega)
          refine ⟨?_, ?_⟩
          · intro a hau
            rw [hs.2 a]
            exact hB3 a hau
          · cases hu : updAt j with
            | some b =>
              rw [hu] at hB4
              exact ⟨by rw [hs.2 b]; exact hB4.1, by rw [hs.1, hB4.2]⟩
            | none =>
              rw [hu] at hB4
              rw [hs.1, hB4]
        · have hs : slotsEq st stB j := hB2 j hji
          obtain ⟨T1, T2⟩ := IH3 j (by omega) (by omega) hj3
          refine ⟨?_, ?_⟩
          · intro a hau
            rw [T1 a hau]
            exact hs.2 a
          · cases hu : updAt j with
            | some b =>
              rw [hu] at T2
              refine ⟨?_, by rw [T2.2, hs.1]⟩
              rw [T2.1]
              exact hs.2 cid
            | none =>
              rw [hu] at T2
              rw [T2, hs.2 cid]
              have hlen12 : stB.2.length = st.2.length := hB1.2.1
              by_cases hfit : j < st.2.length
              · rw [getD_set_self _ _ _ (by omega), getD_set_self _ _ _ hfit]
              · rw [getD_set_congr stB.2 st.2 j (fwdN st.1 cid j) hlen12]
    · have hcondi : ¬ fwdAt st.1 st.2 (updAt i) i = some cid := by
        intro hcon
        exact hstop ((hcond i (le_refl i) (by omega)).mp hcon)
      rw [hshow, if_neg hcondi]
      refine ⟨nodesEq_refl st, fun j _ => slotsEq_refl st j, fun j h1 h2 h3 => ?_⟩
      omega

/-! ## Branch determination for insert and delete -/

theorem op_scrutinee {sl : SkipList} {ids : List Nat} (wf : WFwith sl ids) (key : Int) :
    fwdAt sl.arena sl.header
      ((descend sl.arena sl.header key (sl.arena.length + 1) sl.level none).getD 0 none) 0 =
      (ids.filter (fun a => !decide (nkey sl.arena a < key))).head? := by
  rw [WFfacts.descend_getD wf key 0, WFfacts.fwd_predL wf key 0, WFfacts.chainL_zero wf]

theorem head_key_ne {sl : SkipList} {ids : List Nat} (key : Int)
    (hk : key ∉ ids.map (nkey sl.arena)) :
    ∀ b, (ids.filter (fun a => !decide (nkey sl.arena a < key))).head? = some b →
      nkey sl.arena b ≠ key := by
  intro b hb hcon
  have hmem : b ∈ ids.filter (fun a => !decide (nkey sl.arena a < key)) :=
    List.mem_of_mem_head? (by rw [hb]; rfl)
  exact hk (List.mem_map.mpr ⟨b, List.mem_of_mem_filter hmem, hcon⟩)

theorem head_key_found {sl : SkipList} {ids : List Nat} (wf : WFwith sl ids)
    (key : Int) (hk : key ∈ ids.map (nkey sl.arena)) :
    ∃ b B1, ids.filter (fun a => !decide (nkey sl.arena a < key)) = b :: B1 ∧
      nkey sl.arena b = key := by
  obtain ⟨t, ht, htk⟩ := List.mem_map.mp hk
  have htmem : t ∈ ids.filter (fun a => !decide (nkey sl.arena a < key)) := by
    rw [List.mem_filter]
    refine ⟨ht, ?_⟩
    simp [htk]
  cases hB : ids.filter (fun a => !decide (nkey sl.arena a < key)) with
  | nil => rw [hB] at htmem; simp at htmem
  | cons b B1 =>
    obtain ⟨hbge, habove⟩ := filterGe_head key wf.hsort hB
    refine ⟨b, B1, rfl, ?_⟩
    rw [hB] at htmem
    rcases List.mem_cons.mp htmem with rfl | ht1
    · exact htk
    · have := habove t ht1
      omega

/-! ## The replace branch of insert (lines 108–110) -/

theorem insert_replace_eq {sl : SkipList} {ids : List Nat} (wf : WFwith sl ids)
    (key : Int) {b : Nat} {B1 : List Nat}
    (hB : ids.filter (fun a => !decide (nkey sl.arena a < key)) = b :: B1)
    (hbk : nkey sl.arena b = key) (value : Option Int) (draws : Nat → Rat) :
    ∃ nd, sl.arena[b]? = some nd ∧ nd.key = key ∧
      sl.insert key value draws =
        { sl with arena := sl.arena.set b { nd with value := value } } := by
  have hmem : b ∈ ids := by
    have : b ∈ ids.filter (fun a => !decide (nkey sl.arena a < key)) := by
      rw [hB]; simp
    exact List.mem_of_mem_filter this
  have halive := (wf.hnode b hmem).1
  unfold alive at halive
  rw [Option.isSome_iff_exists] at halive
  obtain ⟨nd, hnd⟩ := halive
  have hkey : nd.key = key := by
    unfold nkey at hbk
    rw [hnd] at hbk
    exact hbk
  refine ⟨nd, hnd, hkey, ?_⟩
  rw [show sl.insert key value draws = (match fwdAt sl.arena sl.header
      ((descend sl.arena sl.header key (sl.arena.length + 1) sl.level none).getD 0 none) 0 with
    | some a =>
      match sl.arena[a]? with
      | some nd2 =>
        if nd2.key = key then
          { sl with arena := sl.arena.set a { nd2 with value := value } }
        else insertNew sl key value draws
          (fun i => (descend sl.arena sl.header key (sl.arena.length + 1) sl.level none).getD i none)
      | none => insertNew sl key value draws
          (fun i => (descend sl.arena sl.header key (sl.arena.length + 1) sl.level none).getD i none)
    | none => insertNew sl key value draws
        (fun i => (descend sl.arena sl.header key (sl.arena.length + 1) sl.level none).getD i none)) from rfl]
  rw [op_scrutinee wf key, hB]
  simp only [List.head?_cons, hnd]
  rw [if_pos hkey]

theorem replace_wf {sl : SkipList} {ids : List Nat} (wf : WFwith sl ids)
    {b : Nat} (_hb : b ∈ ids) (nd : SkipNode) (hnd : sl.arena[b]? = some nd)
    (value : Option Int) :
    WFwith { sl with arena := sl.arena.set b { nd with value := value } } ids := by
  set arena2 := sl.arena.set b { nd with value := value } with harena2
  have hblt : b < sl.arena.length := (List.getElem?_eq_some_iff.mp hnd).1
  have hget : ∀ a, arena2[a]? =
      if b = a then some { nd with value := value } else sl.arena[a]? := by
    intro a
    rw [harena2, List.getElem?_set]
    by_cases hba : b = a
    · subst hba; simp [hblt]
    · simp [hba]
  have hkeys : ∀ a, nkey arena2 a = nkey sl.arena a := by
    intro a
    unfold nkey
    rw [hget a]
    by_cases hba : b = a
    · subst hba; rw [if_pos rfl, hnd]
    · rw [if_neg hba]
  have hlens : ∀ a, nlen arena2 a = nlen sl.arena a := by
    intro a
    unfold nlen
    rw [hget a]
    by_cases hba : b = a
    · subst hba; rw [if_pos rfl, hnd]
    · rw [if_neg hba]
  have halives : ∀ a, alive arena2 a = alive sl.arena a := by
    intro a
    unfold alive
    rw [hget a]
    by_cases hba : b = a
    · subst hba; rw [if_pos rfl, hnd]; rfl
    · rw [if_neg hba]
  have hfwds : ∀ a j, fwdN arena2 a j = fwdN sl.arena a j := by
    intro a j
    unfold fwdN
    rw [hget a]
    by_cases hba : b = a
    · subst hba; rw [if_pos rfl, hnd]
    · rw [if_neg hba]
  refine ⟨wf.hlen, wf.hlvl, ?_, ?_, ?_, wf.habove, wf.htop⟩
  · exact wf.hsort.imp_of_mem (fun ha hb2 h => by rw [hkeys, hkeys]; exact h)
  · intro a ha
    rw [halives a, hlens a]
    exact wf.hnode a ha
  · intro i hi
    have hfilter : ids.filter (fun a => decide (i < nlen arena2 a)) =
        ids.filter (fun a => decide (i < nlen sl.arena a)) :=
      List.filter_congr (fun a _ => by rw [hlens a])
    rw [hfilter]
    rw [chainSegB_congr sl.arena arena2 i _ _ _
      (fun a _ => ⟨halives a, hfwds a i⟩)]
    exact wf.hchain i hi

/-! ## The not-found branch of delete (lines 148, 164) -/

theorem delete_notfound {sl : SkipList} {ids : List Nat} (wf : WFwith sl ids)
    (key : Int) (hk : key ∉ ids.map (nkey sl.arena)) :
    sl.delete key = (false, sl) := by
  rw [show sl.delete key = (match fwdAt sl.arena sl.header
      ((descend sl.arena sl.header key (sl.arena.length + 1) sl.level none).getD 0 none) 0 with
    | some a =>
      match sl.arena[a]? with
      | some nd =>
        if nd.key = key then
          (true, { sl with
            arena := (unlinkLoop
              (fun i => (descend sl.arena sl.header key (sl.arena.length + 1) sl.level none).getD i none)
              a (sl.level + 1) 0 (sl.arena, sl.header)).1,
            header := (unlinkLoop
              (fun i => (descend sl.arena sl.header key (sl.arena.length + 1) sl.level none).getD i none)
              a (sl.level + 1) 0 (sl.arena, sl.header)).2,
            level := shrinkLevel (unlinkLoop
              (fun i => (descend sl.arena sl.header key (sl.arena.length + 1) sl.level none).getD i none)
              a (sl.level + 1) 0 (sl.arena, sl.header)).2 sl.level })
        else (false, sl)
      | none => (false, sl)
    | none => (false, sl)) from rfl]
  rw [op_scrutinee wf key]
  cases hB : (ids.filter (fun a => !decide (nkey sl.arena a < key))).head? with
  | none => rfl
  | some b =>
    have hne := head_key_ne key hk b hB
    have hmem : b ∈ ids := by
      have : b ∈ ids.filter (fun a => !decide (nkey sl.arena a < key)) :=
        List.mem_of_mem_head? (by rw [hB]; rfl)
      exact List.mem_of_mem_filter this
    have halive := (wf.hnode b hmem).1
    unfold alive at halive
    rw [Option.isSome_iff_exists] at halive
    obtain ⟨nd, hnd⟩ := halive
    simp only [hnd]
    rw [if_neg (by
      intro hcon
      apply hne
      unfold nkey
      rw [hnd]
      exact hcon)]

theorem getD_replicate_none (n j : Nat) :
    (List.replicate n (none : Option Nat)).getD j none = none := by
  rw [List.getD_eq_getElem?_getD, List.getElem?_replicate]
  split <;> rfl

theorem filter_comm_nlen (arena : List SkipNode) (ids : List Nat) (i : Nat)
    (p : Nat → Bool) :
    (ids.filter p).filter (fun a => decide (i < nlen arena a)) =
      (ids.filter (fun a => decide (i < nlen arena a))).filter p := by
  rw [List.filter_filter, List.filter_filter]
  exact List.filter_congr (fun a _ => by rw [Bool.and_comm])

/-- The not-found branches of `insert` (lines 111–127) dispatch to the splice
path. -/
theorem insert_notfound_eq {sl : SkipList} {ids : List Nat} (wf : WFwith sl ids)
    (key : Int) (hk : key ∉ ids.map (nkey sl.arena)) (value : Option Int)
    (draws : Nat → Rat) :
    sl.insert key value draws = insertNew sl key value draws
      (fun i => (descend sl.arena sl.header key (sl.arena.length + 1) sl.level none).getD i none) := by
  rw [show sl.insert key value draws = (match fwdAt sl.arena sl.header
      ((descend sl.arena sl.header key (sl.arena.length + 1) sl.level none).getD 0 none) 0 with
    | some a =>
      match sl.arena[a]? with
      | some nd2 =>
        if nd2.key = key then
          { sl with arena := sl.arena.set a { nd2 with value := value } }
        else insertNew sl key value draws
          (fun i => (descend sl.arena sl.header key (sl.arena.length + 1) sl.level none).getD i none)
      | none => insertNew sl key value draws
          (fun i => (descend sl.arena sl.header key (sl.arena.length + 1) sl.level none).getD i none)
    | none => insertNew sl key value draws
        (fun i => (descend sl.arena sl.header key (sl.arena.length + 1) sl.level none).getD i none)) from rfl]
  rw [op_scrutinee wf key]
  cases hB : (ids.filter (fun a => !decide (nkey sl.arena a < key))).head? with
  | none => rfl
  | some b =>
    have hne := head_key_ne key hk b hB
    have hmem : b ∈ ids := by
      have : b ∈ ids.filter (fun a => !decide (nkey sl.arena a < key)) :=
        List.mem_of_mem_head? (by rw [hB]; rfl)
      exact List.mem_of_mem_filter this
    have halive := (wf.hnode b hmem).1
    unfold alive at halive
    rw [Option.isSome_iff_exists] at halive
    obtain ⟨nd, hnd⟩ := halive
    simp only [hnd]
    rw [if_neg (by
      intro hcon
      apply hne
      unfold nkey
      rw [hnd]
      exact hcon)]


theorem chainL_subset_ids (arena : List SkipNode) (ids : List Nat) (i : Nat) :
    ∀ a ∈ chainL arena ids i, a ∈ ids :=
  fun _ ha => List.mem_of_mem_filter ha

/-- Full specification of the splice path of `insert` (lines 111–127) on a
well-formed state whose key set does not contain the target: configuration
preserved, level raised to the sampled level when higher, one node appended
carrying the key/value with `new_level + 1` forward slots, all old node data
untouched, and the result is well-formed with the new node placed at its
sorted position. -/
theorem insertNew_spec {sl : SkipList} {ids : List Nat} (wf : WFwith sl ids)
    (key : Int) (hk : key ∉ ids.map (nkey sl.arena)) (value : Option Int)
    (draws : Nat → Rat) (updAt : Nat → Option Nat)
    (hupd : ∀ i, updAt i = predL sl.arena key ids i) :
    (insertNew sl key value draws updAt).max_level = sl.max_level ∧
    (insertNew sl key value draws updAt).p = sl.p ∧
    (insertNew sl key value draws updAt).level =
      (if sl.random_level draws > sl.level then sl.random_level draws else sl.level) ∧
    (insertNew sl key value draws updAt).arena.length = sl.arena.length + 1 ∧
    (∀ a, a ≠ sl.arena.length →
      nkey (insertNew sl key value draws updAt).arena a = nkey sl.arena a ∧
      nvalue (insertNew sl key value draws updAt).arena a = nvalue sl.arena a ∧
      nlen (insertNew sl key value draws updAt).arena a = nlen sl.arena a ∧
      alive (insertNew sl key value draws updAt).arena a = alive sl.arena a) ∧
    nkey (insertNew sl key value draws updAt).arena sl.arena.length = key ∧
    nvalue (insertNew sl key value draws updAt).arena sl.arena.length = value ∧
    nlen (insertNew sl key value draws updAt).arena sl.arena.length = sl.random_level draws + 1 ∧
    WFwith (insertNew sl key value draws updAt)
      (ids.filter (fun a => decide (nkey sl.arena a < key)) ++ sl.arena.length ::
        ids.filter (fun a => !decide (nkey sl.arena a < key))) := by
  have hLml : sl.random_level draws ≤ sl.max_level := random_level_le sl draws
  set L := sl.random_level draws with hLdef
  set nid := sl.arena.length with hniddef
  set newNode : SkipNode := ⟨key, value, List.replicate (L + 1) none⟩ with hnewdef
  set arena0 := sl.arena ++ [newNode] with harena0def
  set st0 : List SkipNode × List (Option Nat) := (arena0, sl.header) with hst0def
  set stF := spliceLoop updAt nid (L + 1) 0 st0 with hstFdef
  have hst01 : st0.1 = arena0 := rfl
  have hst02 : st0.2 = sl.header := rfl
  have hsl2 : insertNew sl key value draws updAt =
      { sl with
        arena := stF.1
        header := stF.2
        level := (if L > sl.level then L else sl.level) } := rfl
  have ha0_nid : arena0[nid]? = some newNode := List.getElem?_concat_length sl.arena newNode
  have ha0_old : ∀ a, a ≠ nid → arena0[a]? = sl.arena[a]? := by
    intro a ha
    by_cases h : a < nid
    · exact List.getElem?_append_left h
    · have h1 : arena0[a]? = none := by
        rw [List.getElem?_eq_none_iff]
        rw [harena0def, List.length_append]
        simp only [List.length_singleton]
        omega
      have h2 : sl.arena[a]? = none := by
        rw [List.getElem?_eq_none_iff]
        omega
      rw [h1, h2]
  have ha0k : ∀ a, a ≠ nid → nkey arena0 a = nkey sl.arena a := by
    intro a ha; unfold nkey; rw [ha0_old a ha]
  have ha0v : ∀ a, a ≠ nid → nvalue arena0 a = nvalue sl.arena a := by
    intro a ha; unfold nvalue; rw [ha0_old a ha]
  have ha0l : ∀ a, a ≠ nid → nlen arena0 a = nlen sl.arena a := by
    intro a ha; unfold nlen; rw [ha0_old a ha]
  have ha0al : ∀ a, a ≠ nid → alive arena0 a = alive sl.arena a := by
    intro a ha; unfold alive; rw [ha0_old a ha]
  have ha0f : ∀ a j, a ≠ nid → fwdN arena0 a j = fwdN sl.arena a j := by
    intro a j ha; unfold fwdN; rw [ha0_old a ha]
  have hmemid : ∀ a ∈ ids, a ≠ nid := by
    intro a ha hcon
    have := (wf.hnode a ha).1
    unfold alive at this
    rw [Option.isSome_iff_exists] at this
    obtain ⟨nd, hnd⟩ := this
    have := (List.getElem?_eq_some_iff.mp hnd).1
    omega
  have hupdsome : ∀ i b, updAt i = some b →
      b ∈ ids ∧ nkey sl.arena b < key ∧ b ∈ chainL sl.arena ids i := by
    intro i b hb
    rw [hupd i] at hb
    rcases WFfacts.predL_cases sl.arena key ids i with h | ⟨c, hc, hmem, hkc⟩
    · rw [h] at hb; exact absurd hb (by simp)
    · rw [hc] at hb
      have hbc : b = c := by injection hb with h; exact h.symm
      subst hbc
      exact ⟨List.mem_of_mem_filter hmem, hkc, hmem⟩
  have hloopN : ∃ ndN, st0.1[nid]? = some ndN ∧
      ∀ j, 0 ≤ j → j < 0 + (L + 1) → j < ndN.forward.length := by
    refine ⟨newNode, ha0_nid, fun j _ hj => ?_⟩
    rw [hnewdef]
    simp only [List.length_replicate]
    omega
  have hlooppred : ∀ b j, 0 ≤ j → j < 0 + (L + 1) → updAt j = some b →
      b ≠ nid ∧ ∃ ndb, st0.1[b]? = some ndb ∧ j < ndb.forward.length := by
    intro b j _ hj hb
    obtain ⟨hbids, hbkey, hbchain⟩ := hupdsome j b hb
    have hbne := hmemid b hbids
    have halive := (wf.hnode b hbids).1
    unfold alive at halive
    rw [Option.isSome_iff_exists] at halive
    obtain ⟨ndb, hndb⟩ := halive
    refine ⟨hbne, ndb, by rw [hst01, ha0_old b hbne]; exact hndb, ?_⟩
    unfold chainL at hbchain
    rw [List.mem_filter] at hbchain
    have := decide_eq_true_iff.mp hbchain.2
    unfold nlen at this
    rw [hndb] at this
    simpa using this
  obtain ⟨E1, E2, E3⟩ := spliceLoop_effect updAt nid (L + 1) 0 st0 hloopN hlooppred
  rw [← hstFdef] at E1 E2 E3
  have hFk : ∀ a, a ≠ nid → nkey stF.1 a = nkey sl.arena a := by
    intro a ha
    rw [(E1.2.2 a).2.1, hst01, ha0k a ha]
  have hFv : ∀ a, a ≠ nid → nvalue stF.1 a = nvalue sl.arena a := by
    intro a ha
    rw [(E1.2.2 a).2.2.1, hst01, ha0v a ha]
  have hFl : ∀ a, a ≠ nid → nlen stF.1 a = nlen sl.arena a := by
    intro a ha
    rw [(E1.2.2 a).2.2.2, hst01, ha0l a ha]
  have hFal : ∀ a, a ≠ nid → alive stF.1 a = alive sl.arena a := by
    intro a ha
    rw [(E1.2.2 a).1, hst01, ha0al a ha]
  have hFknid : nkey stF.1 nid = key := by
    rw [(E1.2.2 nid).2.1, hst01]
    unfold nkey; rw [ha0_nid]
  have hFvnid : nvalue stF.1 nid = value := by
    rw [(E1.2.2 nid).2.2.1, hst01]
    unfold nvalue; rw [ha0_nid]
  have hFlnid : nlen stF.1 nid = L + 1 := by
    rw [(E1.2.2 nid).2.2.2, hst01]
    unfold nlen; rw [ha0_nid]
    simp [hnewdef]
  have hFalnid : alive stF.1 nid = true := by
    rw [(E1.2.2 nid).1, hst01]
    unfold alive; rw [ha0_nid]; rfl
  have hFlen : stF.1.length = sl.arena.length + 1 := by
    rw [E1.1, hst01, harena0def, List.length_append]
    rfl
  have hFhlen : stF.2.length = sl.max_level + 1 := by
    rw [E1.2.1, hst02]
    exact wf.hlen
  have hBk : ∀ a ∈ ids.filter (fun a => !decide (nkey sl.arena a < key)),
      key < nkey sl.arena a := by
    intro a ha
    rw [List.mem_filter] at ha
    have h1 : ¬ nkey sl.arena a < key := by
      have := ha.2
      simp only [Bool.not_eq_true', decide_eq_false_iff_not] at this
      exact this
    have h2 : nkey sl.arena a ≠ key := by
      intro hcon
      exact hk (List.mem_map.mpr ⟨a, ha.1, hcon⟩)
    omega
  have hdc : ∀ a b, nkey sl.arena a < nkey sl.arena b →
      decide (nkey sl.arena b < key) = true → decide (nkey sl.arena a < key) = true := by
    intro a b hab hb
    rw [decide_eq_true_iff] at hb ⊢
    exact lt_trans hab hb
  have hchain2 : ∀ i, i < sl.max_level + 1 →
      chainSegB stF.1 i (stF.2.getD i none)
        ((ids.filter (fun a => decide (nkey sl.arena a < key)) ++ nid ::
          ids.filter (fun a => !decide (nkey sl.arena a < key))).filter
            (fun a => decide (i < nlen stF.1 a))) none = true := by
    intro i hi
    have hAfc : (ids.filter (fun a => decide (nkey sl.arena a < key))).filter
        (fun a => decide (i < nlen stF.1 a)) =
        (chainL sl.arena ids i).filter (fun a => decide (nkey sl.arena a < key)) := by
      rw [List.filter_congr (fun a ha => by
        rw [hFl a (hmemid a (List.mem_of_mem_filter ha))])]
      exact filter_comm_nlen sl.arena ids i _
    have hBfc : (ids.filter (fun a => !decide (nkey sl.arena a < key))).filter
        (fun a => decide (i < nlen stF.1 a)) =
        (chainL sl.arena ids i).filter (fun a => !decide (nkey sl.arena a < key)) := by
      rw [List.filter_congr (fun a ha => by
        rw [hFl a (hmemid a (List.mem_of_mem_filter ha))])]
      exact filter_comm_nlen sl.arena ids i _
    have hsubA : ∀ a ∈ (chainL sl.arena ids i).filter
        (fun a => decide (nkey sl.arena a < key)), a ∈ ids :=
      fun a ha => chainL_subset_ids sl.arena ids i a (List.mem_of_mem_filter ha)
    have hsubB : ∀ a ∈ (chainL sl.arena ids i).filter
        (fun a => !decide (nkey sl.arena a < key)), a ∈ ids :=
      fun a ha => chainL_subset_ids sl.arena ids i a (List.mem_of_mem_filter ha)
    have hApart := pairwise_filter_append _ _ hdc (chainL sl.arena ids i)
      (WFfacts.chainL_sorted wf i)
    have hchain0 : chainSegB st0.1 i (sl.header.getD i none)
        ((chainL sl.arena ids i).filter (fun a => decide (nkey sl.arena a < key)) ++
          (chainL sl.arena ids i).filter (fun a => !decide (nkey sl.arena a < key))) none = true := by
      rw [hst01, chainSegB_congr sl.arena arena0 i _ _ _ (fun a ha => by
        have hane : a ≠ nid := by
          rcases List.mem_append.mp ha with h | h
          · exact hmemid a (hsubA a h)
          · exact hmemid a (hsubB a h)
        exact ⟨ha0al a hane, ha0f a i hane⟩)]
      rw [← hApart]
      exact WFfacts.chain_all wf i
    rw [List.filter_append, List.filter_cons, hAfc, hBfc]
    by_cases hiL : i < L + 1
    · rw [if_pos (by rw [hFlnid]; simp only [decide_eq_true_iff]; omega)]
      obtain ⟨T1, T2, T3⟩ := E3 i (by omega) (by omega)
      rw [chainSegB_append_iff] at hchain0
      obtain ⟨r, hA0, hB0⟩ := hchain0
      have hr : r = ((chainL sl.arena ids i).filter
          (fun a => !decide (nkey sl.arena a < key))).head? := by
        cases hBl : (chainL sl.arena ids i).filter (fun a => !decide (nkey sl.arena a < key)) with
        | nil => rw [hBl] at hB0; rw [chainSegB_nil_iff] at hB0; simp [hB0]
        | cons b B1 =>
          rw [hBl] at hB0; rw [chainSegB_cons_iff] at hB0; simp [hB0.1]
      have hfwdnid : fwdN stF.1 nid i = r := by
        rw [T1]
        have heq : fwdAt st0.1 st0.2 (updAt i) i = fwdAt sl.arena sl.header (updAt i) i := by
          cases hu : updAt i with
          | none => rw [hst02]; rfl
          | some c =>
            obtain ⟨hcids, _, _⟩ := hupdsome i c hu
            rw [fwdAt_eq_fwdN, fwdAt_eq_fwdN, hst01]
            exact ha0f c i (hmemid c hcids)
        rw [heq, hupd i, WFfacts.fwd_predL wf key i, ← hr]
      have hupdne : ∀ a ∈ (chainL sl.arena ids i).filter
          (fun a => !decide (nkey sl.arena a < key)), updAt i ≠ some a := by
        intro a ha hcon
        obtain ⟨_, hckey, _⟩ := hupdsome i a hcon
        rw [List.mem_filter] at ha
        have := ha.2
        simp only [Bool.not_eq_true', decide_eq_false_iff_not] at this
        exact this hckey
      have hSc : chainSegB stF.1 i r
          ((chainL sl.arena ids i).filter (fun a => !decide (nkey sl.arena a < key)))
          none = true := by
        rw [chainSegB_congr st0.1 stF.1 i _ _ _ (fun a ha => by
          refine ⟨(E1.2.2 a).1, T2 a (hmemid a (hsubB a ha)) (hupdne a ha)⟩)]
        exact hB0
      have hSa : chainSegB stF.1 i (stF.2.getD i none)
          ((chainL sl.arena ids i).filter (fun a => decide (nkey sl.arena a < key)))
          (some nid) = true := by
        rcases List.eq_nil_or_concat ((chainL sl.arena ids i).filter
            (fun a => decide (nkey sl.arena a < key))) with hAl | ⟨A0, c, hAl⟩
        · have hpnone : updAt i = none := by
            rw [hupd i]
            unfold predL
            rw [hAl]
            rfl
          rw [hpnone] at T3
          have hhdr : stF.2.getD i none = some nid := by
            rw [T3, hst02]
            exact getD_set_self _ _ _ (by rw [wf.hlen]; omega)
          rw [hAl, chainSegB_nil_iff, hhdr]
        · have hpc : updAt i = some c := by
            rw [hupd i]
            unfold predL
            rw [hAl, List.concat_eq_append, List.getLast?_append_cons]
            rfl
          rw [hpc] at T3
          rw [hAl, List.concat_eq_append] at hA0 ⊢
          rw [chainSegB_append_iff] at hA0
          obtain ⟨r0, hA00, hc0⟩ := hA0
          rw [chainSegB_cons_iff] at hc0
          obtain ⟨hr0, halc, hcr⟩ := hc0
          rw [chainSegB_nil_iff] at hcr
          have hsubA2 : ∀ a ∈ A0 ++ [c], a ∈ ids := by
            intro a ha
            apply hsubA
            rw [hAl, List.concat_eq_append]
            exact ha
          have hnodupA : (A0 ++ [c]).Nodup := by
            have := (WFfacts.chainL_nodup wf i).sublist
              (List.filter_sublist (l := chainL sl.arena ids i)
                (p := fun a => decide (nkey sl.arena a < key)))
            rw [hAl, List.concat_eq_append] at this
            exact this
          have hcnotA0 : c ∉ A0 := by
            intro hcon
            have hdisj := List.disjoint_of_nodup_append hnodupA
            exact hdisj hcon (by simp)
          rw [chainSegB_append_iff]
          refine ⟨some c, ?_, ?_⟩
          · rw [chainSegB_congr st0.1 stF.1 i A0 _ _ (fun a ha => by
              refine ⟨(E1.2.2 a).1, T2 a (hmemid a (hsubA2 a (by simp [ha]))) ?_⟩
              rw [hpc]
              intro hcon
              have : c = a := by injection hcon
              subst this
              exact hcnotA0 ha)]
            rw [hr0] at hA00
            have hT32 : stF.2.getD i none = st0.2.getD i none := T3.2
            rw [hT32, hst02]
            exact hA00
          · rw [chainSegB_cons_iff]
            refine ⟨rfl, ?_, ?_⟩
            · rw [(E1.2.2 c).1, hst01, ha0al c (hmemid c (hsubA2 c (by simp)))]
              rw [hst01] at halc
              rw [ha0al c (hmemid c (hsubA2 c (by simp)))] at halc
              exact halc
            · rw [chainSegB_nil_iff]
              exact T3.1
      rw [chainSegB_append_iff]
      refine ⟨some nid, hSa, ?_⟩
      rw [chainSegB_cons_iff]
      exact ⟨rfl, hFalnid, by rw [hfwdnid]; exact hSc⟩
    · rw [if_neg (by rw [hFlnid]; simp only [decide_eq_true_iff]; omega)]
      have hs : slotsEq st0 stF i := E2 i (by omega)
      rw [chainSegB_congr st0.1 stF.1 i _ _ _ (fun a ha => ⟨(E1.2.2 a).1, hs.2 a⟩)]
      rw [hs.1, hst02]
      exact hchain0
  rw [hsl2]
  refine ⟨rfl, rfl, rfl, hFlen, ?_, hFknid, hFvnid, hFlnid, ?_⟩
  · intro a ha
    exact ⟨hFk a ha, hFv a ha, hFl a ha, hFal a ha⟩
  · refine ⟨hFhlen, ?_, ?_, ?_, hchain2, ?_, ?_⟩
    · show (if L > sl.level then L else sl.level) ≤ sl.max_level
      have := wf.hlvl
      split <;> omega
    · -- sortedness of the new id list
      rw [List.pairwise_append]
      refine ⟨?_, ?_, ?_⟩
      · refine (wf.hsort.sublist (List.filter_sublist ids)).imp_of_mem ?_
        intro a b ha hb h
        have ha2 := hmemid a (List.mem_of_mem_filter ha)
        have hb2 := hmemid b (List.mem_of_mem_filter hb)
        rw [hFk a ha2, hFk b hb2]
        exact h
      · rw [List.pairwise_cons]
        refine ⟨?_, ?_⟩
        · intro x hx
          rw [hFknid, hFk x (hmemid x (List.mem_of_mem_filter hx))]
          exact hBk x hx
        · refine (wf.hsort.sublist (List.filter_sublist ids)).imp_of_mem ?_
          intro a b ha hb h
          rw [hFk a (hmemid a (List.mem_of_mem_filter ha)),
            hFk b (hmemid b (List.mem_of_mem_filter hb))]
          exact h
      · intro a ha y hy
        have haA : nkey sl.arena a < key := by
          rw [List.mem_filter] at ha
          exact decide_eq_true_iff.mp ha.2
        have ha2 := hmemid a (List.mem_of_mem_filter ha)
        rcases List.mem_cons.mp hy with rfl | hyB
        · rw [hFk a ha2, hFknid]
          exact haA
        · rw [hFk a ha2, hFk y (hmemid y (List.mem_of_mem_filter hyB))]
          exact lt_trans haA (hBk y hyB)
    · intro a ha
      rcases List.mem_append.mp ha with h | h
      · have ha2 := hmemid a (List.mem_of_mem_filter h)
        have hgoal := wf.hnode a (List.mem_of_mem_filter h)
        refine ⟨?_, ?_, ?_⟩
        · show alive stF.1 a = true
          rw [hFal a ha2]; exact hgoal.1
        · show 1 ≤ nlen stF.1 a
          rw [hFl a ha2]; exact hgoal.2.1
        · show nlen stF.1 a ≤ sl.max_level + 1
          rw [hFl a ha2]; exact hgoal.2.2
      · rcases List.mem_cons.mp h with rfl | h2
        · refine ⟨?_, ?_, ?_⟩
          · show alive stF.1 nid = true
            exact hFalnid
          · show 1 ≤ nlen stF.1 nid
            rw [hFlnid]; omega
          · show nlen stF.1 nid ≤ sl.max_level + 1
            rw [hFlnid]; omega
        · have ha2 := hmemid a (List.mem_of_mem_filter h2)
          have hgoal := wf.hnode a (List.mem_of_mem_filter h2)
          refine ⟨?_, ?_, ?_⟩
          · show alive stF.1 a = true
            rw [hFal a ha2]; exact hgoal.1
          · show 1 ≤ nlen stF.1 a
            rw [hFl a ha2]; exact hgoal.2.1
          · show nlen stF.1 a ≤ sl.max_level + 1
            rw [hFl a ha2]; exact hgoal.2.2
    · -- header absent above the new level
      intro i hi hlvl2
      have hlvl2b : (if L > sl.level then L else sl.level) < i := hlvl2
      show stF.2.getD i none = none
      have hiL : L + 1 ≤ i := by
        by_cases hc : L > sl.level
        · rw [if_pos hc] at hlvl2b; omega
        · rw [if_neg hc] at hlvl2b; omega
      have hilvl : sl.level < i := by
        by_cases hc : L > sl.level
        · rw [if_pos hc] at hlvl2b; omega
        · rw [if_neg hc] at hlvl2b; omega
      have hs : slotsEq st0 stF i := E2 i (by omega)
      rw [hs.1, hst02]
      exact wf.habove i hi hilvl
    · -- header present at the new level
      intro hpos
      have hposb : 0 < (if L > sl.level then L else sl.level) := hpos
      show stF.2.getD (if L > sl.level then L else sl.level) none ≠ none
      by_cases hc : L > sl.level
      · rw [if_pos hc] at hposb ⊢
        have hpnone : updAt L = none := by
          rw [hupd L]
          unfold predL
          rw [WFfacts.chainL_above_lvl wf L hc]
          rfl
        obtain ⟨_, _, T3⟩ := E3 L (by omega) (by omega)
        rw [hpnone] at T3
        rw [T3, hst02, getD_set_self _ _ _ (by rw [wf.hlen]; omega)]
        simp
      · rw [if_neg hc] at hposb ⊢
        have horig := wf.htop hposb
        by_cases hlvlL : sl.level < L + 1
        · obtain ⟨_, _, T3⟩ := E3 sl.level (by omega) (by omega)
          cases hu : updAt sl.level with
          | some b =>
            rw [hu] at T3
            rw [T3.2, hst02]
            exact horig
          | none =>
            rw [hu] at T3
            rw [T3, hst02, getD_set_self _ _ _ (by rw [wf.hlen]; have := wf.hlvl; omega)]
            simp
        · have hs : slotsEq st0 stF sl.level := E2 sl.level (by omega)
          rw [hs.1, hst02]
          exact horig

/-- Full specification of the found branch of `delete` (lines 151–162) on a
well-formed state containing the key: returns `true`, rewires only the
predecessors of the target (no node data changes, no allocation), shrinks the
level, and the result is well-formed with the target removed from the id
list. -/
theorem delete_found_spec {sl : SkipList} {ids : List Nat} (wf : WFwith sl ids)
    (key : Int) {t : Nat} {B1 : List Nat}
    (hB : ids.filter (fun a => !decide (nkey sl.arena a < key)) = t :: B1)
    (htk : nkey sl.arena t = key) :
    (sl.delete key).1 = true ∧
    (sl.delete key).2.max_level = sl.max_level ∧
    (sl.delete key).2.p = sl.p ∧
    (sl.delete key).2.arena.length = sl.arena.length ∧
    (∀ a, nkey (sl.delete key).2.arena a = nkey sl.arena a ∧
      nvalue (sl.delete key).2.arena a = nvalue sl.arena a ∧
      nlen (sl.delete key).2.arena a = nlen sl.arena a ∧
      alive (sl.delete key).2.arena a = alive sl.arena a) ∧
    (sl.delete key).2.level ≤ sl.level ∧
    WFwith (sl.delete key).2
      (ids.filter (fun a => decide (nkey sl.arena a < key)) ++ B1) := by
  have htids : t ∈ ids := by
    have : t ∈ ids.filter (fun a => !decide (nkey sl.arena a < key)) := by
      rw [hB]; simp
    exact List.mem_of_mem_filter this
  have htalive := (wf.hnode t htids).1
  have htalive2 := htalive
  unfold alive at htalive2
  rw [Option.isSome_iff_exists] at htalive2
  obtain ⟨ndt, hndt⟩ := htalive2
  have hndtk : ndt.key = key := by
    unfold nkey at htk
    rw [hndt] at htk
    exact htk
  have hB1gt : ∀ x ∈ B1, key < nkey sl.arena x := by
    intro x hx
    obtain ⟨_, habove⟩ := filterGe_head key wf.hsort hB
    have := habove x hx
    omega
  have hdc : ∀ a b, nkey sl.arena a < nkey sl.arena b →
      decide (nkey sl.arena a < key) = false → decide (nkey sl.arena b < key) = false := by
    intro a b hab ha
    rw [decide_eq_false_iff_not] at ha ⊢
    omega
  set updAt : Nat → Option Nat :=
    fun i => (descend sl.arena sl.header key (sl.arena.length + 1) sl.level none).getD i none
    with hupddef
  have hupd : ∀ i, updAt i = predL sl.arena key ids i := fun i => WFfacts.descend_getD wf key i
  set st0 : List SkipNode × List (Option Nat) := (sl.arena, sl.header) with hst0def
  set stU := unlinkLoop updAt t (sl.level + 1) 0 st0 with hstUdef
  have hst01 : st0.1 = sl.arena := rfl
  have hst02 : st0.2 = sl.header := rfl
  have hdel : sl.delete key = (true,
      { sl with
        arena := stU.1
        header := stU.2
        level := shrinkLevel stU.2 sl.level }) := by
    rw [show sl.delete key = (match fwdAt sl.arena sl.header
        ((descend sl.arena sl.header key (sl.arena.length + 1) sl.level none).getD 0 none) 0 with
      | some a =>
        match sl.arena[a]? with
        | some nd =>
          if nd.key = key then
            (true, { sl with
              arena := (unlinkLoop updAt a (sl.level + 1) 0 (sl.arena, sl.header)).1,
              header := (unlinkLoop updAt a (sl.level + 1) 0 (sl.arena, sl.header)).2,
              level := shrinkLevel (unlinkLoop updAt a (sl.level + 1) 0 (sl.arena, sl.header)).2 sl.level })
          else (false, sl)
        | none => (false, sl)
      | none => (false, sl)) from rfl]
    rw [op_scrutinee wf key, hB]
    simp only [List.head?_cons, hndt]
    rw [if_pos hndtk]
  -- the number of levels the target occupies, bounded by the current level
  have hstop1 : 1 ≤ nlen sl.arena t := (wf.hnode t htids).2.1
  have htchain : t ∈ chainL sl.arena ids (nlen sl.arena t - 1) := by
    unfold chainL
    rw [List.mem_filter]
    exact ⟨htids, by simp only [decide_eq_true_iff]; omega⟩
  have hstople : nlen sl.arena t ≤ sl.level + 1 := by
    by_contra hcon
    have h1 : sl.level < nlen sl.arena t - 1 := by omega
    have h2 := WFfacts.chainL_above_lvl wf (nlen sl.arena t - 1) h1
    rw [h2] at htchain
    simp at htchain
  -- the head of the not-below part of each level chain
  have hheadj : ∀ j, fwdAt sl.arena sl.header (updAt j) j =
      ((t :: B1).filter (fun a => decide (j < nlen sl.arena a))).head? := by
    intro j
    rw [hupd j, WFfacts.fwd_predL wf key j]
    congr 1
    rw [← hB]
    exact (filter_comm_nlen sl.arena ids j _).symm
  have hcond : ∀ j, 0 ≤ j → j < 0 + (sl.level + 1) →
      (fwdAt st0.1 st0.2 (updAt j) j = some t ↔ j < nlen sl.arena t) := by
    intro j _ _
    rw [hst01, hst02, hheadj j]
    constructor
    · intro h
      by_contra hcon
      rw [List.filter_cons, if_neg (by simpa using hcon)] at h
      cases hx : (B1.filter (fun a => decide (j < nlen sl.arena a))).head? with
      | none => rw [hx] at h; exact absurd h (by simp)
      | some x =>
        rw [hx] at h
        have hxt : x = t := by injection h
        have hxmem : x ∈ B1 :=
          List.mem_of_mem_filter (List.mem_of_mem_head? (by rw [hx]; rfl))
        have := hB1gt x hxmem
        rw [hxt, htk] at this
        omega
    · intro h
      rw [List.filter_cons, if_pos (by simpa using h)]
      rfl
  have hupdsome : ∀ i b, updAt i = some b →
      b ∈ ids ∧ nkey sl.arena b < key ∧ b ∈ chainL sl.arena ids i := by
    intro i b hb
    rw [hupd i] at hb
    rcases WFfacts.predL_cases sl.arena key ids i with h | ⟨c, hc, hmem, hkc⟩
    · rw [h] at hb; exact absurd hb (by simp)
    · rw [hc] at hb
      have hbc : b = c := by injection hb with h; exact h.symm
      subst hbc
      exact ⟨List.mem_of_mem_filter hmem, hkc, hmem⟩
  have hpreds : ∀ b j, 0 ≤ j → j < 0 + (sl.level + 1) → j < nlen sl.arena t →
      updAt j = some b → b ≠ t ∧ ∃ ndb, st0.1[b]? = some ndb ∧ j < ndb.forward.length := by
    intro b j _ _ _ hb
    obtain ⟨hbids, hbkey, hbchain⟩ := hupdsome j b hb
    have hbt : b ≠ t := by
      intro hcon
      rw [hcon, htk] at hbkey
      omega
    have halive := (wf.hnode b hbids).1
    unfold alive at halive
    rw [Option.isSome_iff_exists] at halive
    obtain ⟨ndb, hndb⟩ := halive
    refine ⟨hbt, ndb, by rw [hst01]; exact hndb, ?_⟩
    unfold chainL at hbchain
    rw [List.mem_filter] at hbchain
    have := decide_eq_true_iff.mp hbchain.2
    unfold nlen at this
    rw [hndb] at this
    simpa using this
  obtain ⟨E1, E2, E3⟩ :=
    unlinkLoop_effect updAt t (sl.level + 1) 0 (nlen sl.arena t) st0 hcond hpreds
  rw [← hstUdef] at E1 E2 E3
  have hFk : ∀ a, nkey stU.1 a = nkey sl.arena a := fun a => (E1.2.2 a).2.1
  have hFv : ∀ a, nvalue stU.1 a = nvalue sl.arena a := fun a => (E1.2.2 a).2.2.1
  have hFl : ∀ a, nlen stU.1 a = nlen sl.arena a := fun a => (E1.2.2 a).2.2.2
  have hFal : ∀ a, alive stU.1 a = alive sl.arena a := fun a => (E1.2.2 a).1
  have hFlen : stU.1.length = sl.arena.length := E1.1
  have hFhlen : stU.2.length = sl.max_level + 1 := by
    rw [E1.2.1, hst02]; exact wf.hlen
  have hApart := pairwise_filter_append
      (fun a b => nkey sl.arena a < nkey sl.arena b)
      (fun a => decide (nkey sl.arena a < key))
      (fun a b hab hb => by
        rw [decide_eq_true_iff] at hb ⊢; exact lt_trans hab hb) ids wf.hsort
  have hidseq : ids = ids.filter (fun a => decide (nkey sl.arena a < key)) ++ t :: B1 := by
    rw [← hB]; exact hApart
  have hsubnew : ∀ a ∈ ids.filter (fun a => decide (nkey sl.arena a < key)) ++ B1, a ∈ ids := by
    intro a ha
    rcases List.mem_append.mp ha with h | h
    · exact List.mem_of_mem_filter h
    · rw [hidseq]
      exact List.mem_append.mpr (Or.inr (by simp [h]))
  have hnewsub : (ids.filter (fun a => decide (nkey sl.arena a < key)) ++ B1).Sublist ids := by
    conv_rhs => rw [hidseq]
    exact List.Sublist.append_left (List.sublist_cons_self t B1) _
  rw [hdel]
  refine ⟨rfl, rfl, rfl, hFlen, fun a => ⟨hFk a, hFv a, hFl a, hFal a⟩,
    shrinkLevel_le stU.2 sl.level, ?_⟩
  refine ⟨hFhlen, le_trans (shrinkLevel_le stU.2 sl.level) wf.hlvl, ?_, ?_, ?_, ?_, ?_⟩
  · refine (wf.hsort.sublist hnewsub).imp_of_mem ?_
    intro a b ha hb h
    rw [hFk a, hFk b]
    exact h
  · intro a ha
    have ha2 := hsubnew a ha
    have hgoal := wf.hnode a ha2
    refine ⟨?_, ?_, ?_⟩
    · show alive stU.1 a = true
      rw [hFal a]; exact hgoal.1
    · show 1 ≤ nlen stU.1 a
      rw [hFl a]; exact hgoal.2.1
    · show nlen stU.1 a ≤ sl.max_level + 1
      rw [hFl a]; exact hgoal.2.2
  · -- chains after the unlink
    intro i hi
    have hi2 : i < sl.max_level + 1 := hi
    clear hi
    show chainSegB stU.1 i (stU.2.getD i none)
      ((ids.filter (fun a => decide (nkey sl.arena a < key)) ++ B1).filter
        (fun a => decide (i < nlen stU.1 a))) none = true
    have hfc : ∀ (l : List Nat), l.filter (fun a => decide (i < nlen stU.1 a)) =
        l.filter (fun a => decide (i < nlen sl.arena a)) :=
      fun l => List.filter_congr (fun a _ => by rw [hFl a])
    rw [List.filter_append, hfc, hfc]
    have hchainold := WFfacts.chain_all wf i
    have hchainsplit : chainL sl.arena ids i =
        (ids.filter (fun a => decide (nkey sl.arena a < key))).filter
          (fun a => decide (i < nlen sl.arena a)) ++
        (t :: B1).filter (fun a => decide (i < nlen sl.arena a)) := by
      unfold chainL
      conv_lhs => rw [hidseq]
      rw [List.filter_append]
    by_cases hit : i < nlen sl.arena t
    · -- an unlinked level
      have hile : i ≤ sl.level := by omega
      obtain ⟨T1, T2⟩ := E3 i (by omega) (by omega) hit
      rw [hchainsplit, List.filter_cons, if_pos (by simpa using hit)] at hchainold
      rw [chainSegB_append_iff] at hchainold
      obtain ⟨r, hA0, hB0⟩ := hchainold
      rw [chainSegB_cons_iff] at hB0
      obtain ⟨hrt, _, hB0rest⟩ := hB0
      have hupdne : ∀ a ∈ B1.filter (fun a => decide (i < nlen sl.arena a)),
          updAt i ≠ some a := by
        intro a ha hcon
        obtain ⟨_, hckey, _⟩ := hupdsome i a hcon
        have := hB1gt a (List.mem_of_mem_filter ha)
        omega
      have hSc : chainSegB stU.1 i (fwdN sl.arena t i)
          (B1.filter (fun a => decide (i < nlen sl.arena a))) none = true := by
        rw [chainSegB_congr st0.1 stU.1 i _ _ _ (fun a ha =>
          ⟨(E1.2.2 a).1, T1 a (hupdne a ha)⟩)]
        rw [hst01]
        exact hB0rest
      rcases List.eq_nil_or_concat ((ids.filter (fun a => decide (nkey sl.arena a < key))).filter
          (fun a => decide (i < nlen sl.arena a))) with hAl | ⟨A0, c, hAl⟩
      · have hpnone : updAt i = none := by
          rw [hupd i]
          unfold predL chainL
          rw [← filter_comm_nlen, hAl]
          rfl
        rw [hpnone] at T2
        have hhdr : stU.2.getD i none = fwdN sl.arena t i := by
          rw [T2, hst02, hst01, getD_set_self _ _ _ (by rw [wf.hlen]; omega)]
        rw [hAl, List.nil_append, hhdr]
        exact hSc
      · have hpc : updAt i = some c := by
          rw [hupd i]
          unfold predL chainL
          rw [← filter_comm_nlen, hAl, List.concat_eq_append, List.getLast?_append_cons]
          rfl
        rw [hpc] at T2
        rw [hAl, List.concat_eq_append] at hA0 ⊢
        rw [chainSegB_append_iff] at hA0
        obtain ⟨r0, hA00, hc0⟩ := hA0
        rw [chainSegB_cons_iff] at hc0
        obtain ⟨hr0, halc, hcr⟩ := hc0
        rw [chainSegB_nil_iff] at hcr
        have hsubA2 : ∀ a ∈ A0 ++ [c], a ∈ ids := by
          intro a ha
          have : a ∈ (ids.filter (fun a => decide (nkey sl.arena a < key))).filter
              (fun a => decide (i < nlen sl.arena a)) := by
            rw [hAl, List.concat_eq_append]; exact ha
          exact List.mem_of_mem_filter (List.mem_of_mem_filter this)
        have hnodupA : (A0 ++ [c]).Nodup := by
          have h1 : ((ids.filter (fun a => decide (nkey sl.arena a < key))).filter
              (fun a => decide (i < nlen sl.arena a))).Nodup :=
            ((WFfacts.ids_nodup wf).sublist (List.filter_sublist ids)).sublist
              (List.filter_sublist _)
          rw [hAl, List.concat_eq_append] at h1
          exact h1
        have hcnotA0 : c ∉ A0 := by
          intro hcon
          have hdisj := List.disjoint_of_nodup_append hnodupA
          exact hdisj hcon (by simp)
        rw [chainSegB_append_iff]
        refine ⟨fwdN sl.arena t i, ?_, hSc⟩
        rw [chainSegB_append_iff]
        refine ⟨some c, ?_, ?_⟩
        · rw [chainSegB_congr st0.1 stU.1 i A0 _ _ (fun a ha => by
            refine ⟨(E1.2.2 a).1, T1 a ?_⟩
            rw [hpc]
            intro hcon
            have : c = a := by injection hcon
            subst this
            exact hcnotA0 ha)]
          rw [hr0] at hA00
          rw [T2.2, hst02, hst01]
          exact hA00
        · rw [chainSegB_cons_iff]
          refine ⟨rfl, ?_, ?_⟩
          · rw [hFal c]
            exact halc
          · rw [chainSegB_nil_iff, T2.1, hst01]
    · -- levels above the target: untouched
      have hs : slotsEq st0 stU i := E2 i (by omega)
      rw [hchainsplit, List.filter_cons, if_neg (by simpa using hit)] at hchainold
      rw [chainSegB_congr st0.1 stU.1 i _ _ _ (fun a ha => ⟨(E1.2.2 a).1, hs.2 a⟩)]
      rw [hs.1, hst02, hst01]
      exact hchainold
  · -- header absent above the new level
    intro i hi hlvl2
    have hlvl2b : shrinkLevel stU.2 sl.level < i := hlvl2
    show stU.2.getD i none = none
    by_cases hile : i ≤ sl.level
    · exact shrinkLevel_above stU.2 sl.level i hlvl2b hile
    · have hs : slotsEq st0 stU i := E2 i (by omega)
      rw [hs.1, hst02]
      exact wf.habove i hi (by omega)
  · -- header present at the new level
    intro hpos
    exact shrinkLevel_pos stU.2 sl.level hpos

/-! ## Well-formedness of the initial state and level determination -/

theorem init_wf (m : Nat) (p : Rat) : WFwith (SkipList.init m p) [] := by
  refine ⟨?_, Nat.zero_le m, List.Pairwise.nil, fun a ha => absurd ha (by simp), ?_, ?_, ?_⟩
  · show (List.replicate (m + 1) (none : Option Nat)).length = m + 1
    simp
  · intro i _
    show chainSegB [] i ((List.replicate (m + 1) (none : Option Nat)).getD i none)
      (List.filter _ []) none = true
    rw [List.filter_nil, getD_replicate_none]
    rfl
  · intro i _ _
    exact getD_replicate_none (m + 1) i
  · intro h
    exact absurd h (by simp [SkipList.init])

theorem foldr_max_le_iff (l : List Nat) (b : Nat) :
    l.foldr max 0 ≤ b ↔ ∀ x ∈ l, x ≤ b := by
  induction l with
  | nil => simp
  | cons a l ih =>
    simp only [List.foldr_cons, List.mem_cons]
    rw [Nat.max_le, ih]
    constructor
    · rintro ⟨h1, h2⟩ x (rfl | hx)
      · exact h1
      · exact h2 x hx
    · intro h
      exact ⟨h a (Or.inl rfl), fun x hx => h x (Or.inr hx)⟩

theorem le_foldr_max (l : List Nat) (x : Nat) (hx : x ∈ l) : x ≤ l.foldr max 0 := by
  induction l with
  | nil => simp at hx
  | cons a l ih =>
    simp only [List.foldr_cons]
    rcases List.mem_cons.mp hx with rfl | hx2
    · exact Nat.le_max_left _ _
    · exact le_trans (ih hx2) (Nat.le_max_right _ _)

/-- On a well-formed state the current level is determined by the node data:
it is the largest node level (`forward.length - 1`), or `0` when empty. -/
theorem wf_level {sl : SkipList} {ids : List Nat} (wf : WFwith sl ids) :
    sl.level = (ids.map (fun a => nlen sl.arena a - 1)).foldr max 0 := by
  have hub : ∀ a ∈ ids, nlen sl.arena a - 1 ≤ sl.level := by
    intro a ha
    by_contra hcon
    have h1 : sl.level < sl.level + 1 := by omega
    have h2 : a ∈ chainL sl.arena ids (sl.level + 1) := by
      unfold chainL
      rw [List.mem_filter]
      exact ⟨ha, by simp only [decide_eq_true_iff]; omega⟩
    rw [WFfacts.chainL_above_lvl wf (sl.level + 1) h1] at h2
    simp at h2
  have hle : (ids.map (fun a => nlen sl.arena a - 1)).foldr max 0 ≤ sl.level := by
    rw [foldr_max_le_iff]
    intro x hx
    obtain ⟨a, ha, rfl⟩ := List.mem_map.mp hx
    exact hub a ha
  by_cases hlvl : 0 < sl.level
  · have hne := wf.htop hlvl
    have hchain := WFfacts.chain_all wf sl.level
    cases hcl : chainL sl.arena ids sl.level with
    | nil =>
      rw [hcl, chainSegB_nil_iff] at hchain
      exact absurd hchain hne
    | cons a l =>
      have hamem : a ∈ chainL sl.arena ids sl.level := by rw [hcl]; simp
      unfold chainL at hamem
      rw [List.mem_filter] at hamem
      have h1 := decide_eq_true_iff.mp hamem.2
      have h2 : sl.level ≤ nlen sl.arena a - 1 := by omega
      have h3 : nlen sl.arena a - 1 ≤
          (ids.map (fun a => nlen sl.arena a - 1)).foldr max 0 :=
        le_foldr_max _ _ (List.mem_map.mpr ⟨a, hamem.1, rfl⟩)
      omega
  · omega

/-! ## Evolution of the association status under the operations -/

theorem statusOf_append (l1 l2 : List (Int × Option Int)) (k : Int) :
    statusOf (l1 ++ l2) k = (statusOf l1 k).or (statusOf l2 k) := by
  unfold statusOf
  rw [List.find?_append]
  cases l1.find? (fun e => decide (e.1 = k)) <;> simp

theorem statusOf_cons_ne (e : Int × Option Int) (l : List (Int × Option Int))
    (k : Int) (h : ¬ e.1 = k) : statusOf (e :: l) k = statusOf l k := by
  unfold statusOf
  rw [List.find?_cons_of_neg _ (by simp [h])]

theorem statusOf_cons_eq (e : Int × Option Int) (l : List (Int × Option Int))
    (k : Int) (h : e.1 = k) : statusOf (e :: l) k = some e.2 := by
  unfold statusOf
  rw [List.find?_cons_of_pos _ (by simp [h])]
  rfl

theorem statusOf_eq_none (l : List (Int × Option Int)) (k : Int)
    (h : ∀ e ∈ l, ¬ e.1 = k) : statusOf l k = none := by
  unfold statusOf
  rw [List.find?_eq_none.mpr (fun e he => by simp [h e he])]
  rfl

theorem set_value_accessors (arena : List SkipNode) (b : Nat) (nd : SkipNode)
    (hnd : arena[b]? = some nd) (v : Option Int) :
    (∀ a, nkey (arena.set b { nd with value := v }) a = nkey arena a) ∧
    (∀ a, nlen (arena.set b { nd with value := v }) a = nlen arena a) ∧
    nvalue (arena.set b { nd with value := v }) b = v ∧
    (∀ a, a ≠ b → nvalue (arena.set b { nd with value := v }) a = nvalue arena a) := by
  have hblt : b < arena.length := (List.getElem?_eq_some_iff.mp hnd).1
  have hget : ∀ a, (arena.set b { nd with value := v })[a]? =
      if b = a then some { nd with value := v } else arena[a]? := by
    intro a
    rw [List.getElem?_set]
    by_cases hba : b = a
    · subst hba; simp [hblt]
    · simp [hba]
  refine ⟨?_, ?_, ?_, ?_⟩
  · intro a
    unfold nkey
    rw [hget a]
    by_cases hba : b = a
    · subst hba; rw [if_pos rfl, hnd]
    · rw [if_neg hba]
  · intro a
    unfold nlen
    rw [hget a]
    by_cases hba : b = a
    · subst hba; rw [if_pos rfl, hnd]
    · rw [if_neg hba]
  · unfold nvalue
    rw [hget b, if_pos rfl]
  · intro a ha
    unfold nvalue
    rw [hget a, if_neg (fun hcon => ha hcon.symm)]

/-- The item list of the state after `insert`: the new pair replaces the old
one in place (existing key) or is inserted at its sorted position (new key);
either way the status of every key updates pointwise. -/
theorem insert_status {sl : SkipList} {ids : List Nat} (wf : WFwith sl ids)
    (key : Int) (v : Option Int) (draws : Nat → Rat) :
    ∃ ids2, WFwith (sl.insert key v draws) ids2 ∧
      ∀ k, statusOf (sl.insert key v draws).get_all_items k =
        (if key = k then some v else statusOf sl.get_all_items k) := by
  have hA_lt : ∀ e ∈ (ids.filter (fun a => decide (nkey sl.arena a < key))).map
      (fun a => (nkey sl.arena a, nvalue sl.arena a)), e.1 < key := by
    intro e he
    obtain ⟨a, ha, rfl⟩ := List.mem_map.mp he
    rw [List.mem_filter] at ha
    exact decide_eq_true_iff.mp ha.2
  have hdc : ∀ a b, nkey sl.arena a < nkey sl.arena b →
      decide (nkey sl.arena b < key) = true → decide (nkey sl.arena a < key) = true := by
    intro a b hab hb
    rw [decide_eq_true_iff] at hb ⊢
    exact lt_trans hab hb
  have hApart := pairwise_filter_append
      (fun a b => nkey sl.arena a < nkey sl.arena b)
      (fun a => decide (nkey sl.arena a < key)) hdc ids wf.hsort
  by_cases hk : key ∈ ids.map (nkey sl.arena)
  · obtain ⟨b, B1, hB, hbk⟩ := head_key_found wf key hk
    obtain ⟨nd, hnd, hndk, heq⟩ := insert_replace_eq wf key hB hbk v draws
    have hbmem : b ∈ ids := by
      have : b ∈ ids.filter (fun a => !decide (nkey sl.arena a < key)) := by
        rw [hB]; simp
      exact List.mem_of_mem_filter this
    have wf2 : WFwith (sl.insert key v draws) ids := by
      rw [heq]
      exact replace_wf wf hbmem nd hnd v
    obtain ⟨hks, hlens2, hvb, hvother⟩ := set_value_accessors sl.arena b nd hnd v
    have hidseq : ids = ids.filter (fun a => decide (nkey sl.arena a < key)) ++ b :: B1 := by
      rw [← hB]; exact hApart
    have hBne : ∀ x ∈ B1, x ≠ b := by
      intro x hx hcon
      obtain ⟨_, habove⟩ := filterGe_head key wf.hsort hB
      have := habove x hx
      rw [hcon] at this
      omega
    have hAne : ∀ x ∈ ids.filter (fun a => decide (nkey sl.arena a < key)), x ≠ b := by
      intro x hx hcon
      rw [List.mem_filter] at hx
      have := decide_eq_true_iff.mp hx.2
      rw [hcon, hbk] at this
      omega
    refine ⟨ids, wf2, fun k => ?_⟩
    have hitems2 : (sl.insert key v draws).get_all_items =
        (ids.filter (fun a => decide (nkey sl.arena a < key))).map
          (fun a => (nkey sl.arena a, nvalue sl.arena a)) ++
        (key, v) :: B1.map (fun a => (nkey sl.arena a, nvalue sl.arena a)) := by
      rw [wf_items wf2]
      have haren : (sl.insert key v draws).arena = sl.arena.set b { nd with value := v } := by
        rw [heq]
      conv_lhs => rw [hidseq]
      rw [List.map_append, List.map_cons]
      congr 1
      · refine List.map_congr_left ?_
        intro a ha
        rw [haren, hks a, hvother a (hAne a ha)]
      · congr 1
        · rw [haren, hks b, hvb, hbk]
        · refine List.map_congr_left ?_
          intro a ha
          rw [haren, hks a, hvother a (hBne a ha)]
    have hitems : sl.get_all_items =
        (ids.filter (fun a => decide (nkey sl.arena a < key))).map
          (fun a => (nkey sl.arena a, nvalue sl.arena a)) ++
        (nkey sl.arena b, nvalue sl.arena b) ::
          B1.map (fun a => (nkey sl.arena a, nvalue sl.arena a)) := by
      rw [wf_items wf]
      conv_lhs => rw [hidseq]
      rw [List.map_append, List.map_cons]
    rw [hitems2, hitems, statusOf_append, statusOf_append]
    by_cases hkk : key = k
    · subst hkk
      rw [if_pos rfl]
      rw [statusOf_eq_none _ key (fun e he => by have := hA_lt e he; omega)]
      rw [statusOf_cons_eq (key, v) _ key rfl]
      simp
    · rw [if_neg hkk]
      rw [statusOf_cons_ne _ _ k (by simpa using hkk),
        statusOf_cons_ne _ _ k (by rw [hbk]; simpa using hkk)]
  · rw [insert_notfound_eq wf key hk v draws]
    obtain ⟨_, _, _, _, hfr, hnidk, hnidv, _, wf2⟩ :=
      insertNew_spec wf key hk v draws
        (fun i => (descend sl.arena sl.header key (sl.arena.length + 1) sl.level none).getD i none)
        (fun i => WFfacts.descend_getD wf key i)
    refine ⟨_, wf2, fun k => ?_⟩
    have hmemid : ∀ a ∈ ids, a ≠ sl.arena.length := by
      intro a ha hcon
      have := (wf.hnode a ha).1
      unfold alive at this
      rw [Option.isSome_iff_exists] at this
      obtain ⟨nd, hnd⟩ := this
      have := (List.getElem?_eq_some_iff.mp hnd).1
      omega
    have hitems2 : (insertNew sl key v draws
        (fun i => (descend sl.arena sl.header key (sl.arena.length + 1) sl.level none).getD i none)).get_all_items =
        (ids.filter (fun a => decide (nkey sl.arena a < key))).map
          (fun a => (nkey sl.arena a, nvalue sl.arena a)) ++
        (key, v) :: (ids.filter (fun a => !decide (nkey sl.arena a < key))).map
          (fun a => (nkey sl.arena a, nvalue sl.arena a)) := by
      rw [wf_items wf2, List.map_append, List.map_cons]
      congr 1
      · refine List.map_congr_left ?_
        intro a ha
        have ha2 := hmemid a (List.mem_of_mem_filter ha)
        obtain ⟨h1, h2, _, _⟩ := hfr a ha2
        rw [h1, h2]
      · congr 1
        · rw [hnidk, hnidv]
        · refine List.map_congr_left ?_
          intro a ha
          have ha2 := hmemid a (List.mem_of_mem_filter ha)
          obtain ⟨h1, h2, _, _⟩ := hfr a ha2
          rw [h1, h2]
    have hitems : sl.get_all_items =
        (ids.filter (fun a => decide (nkey sl.arena a < key))).map
          (fun a => (nkey sl.arena a, nvalue sl.arena a)) ++
        (ids.filter (fun a => !decide (nkey sl.arena a < key))).map
          (fun a => (nkey sl.arena a, nvalue sl.arena a)) := by
      rw [wf_items wf]
      conv_lhs => rw [hApart]
      rw [List.map_append]
    rw [hitems2, hitems, statusOf_append, statusOf_append]
    by_cases hkk : key = k
    · subst hkk
      rw [if_pos rfl]
      rw [statusOf_eq_none _ key (fun e he => by have := hA_lt e he; omega)]
      rw [statusOf_cons_eq _ _ key rfl]
      simp
    · rw [if_neg hkk]
      rw [statusOf_cons_ne _ _ k (by simpa using hkk)]

/-- The item list of the state after `delete`: the pair of the key disappears
(when present); the status of every key updates pointwise. -/
theorem delete_status {sl : SkipList} {ids : List Nat} (wf : WFwith sl ids)
    (key : Int) :
    ∃ ids2, WFwith (sl.delete key).2 ids2 ∧
      ∀ k, statusOf (sl.delete key).2.get_all_items k =
        (if key = k then none else statusOf sl.get_all_items k) := by
  have hA_lt : ∀ e ∈ (ids.filter (fun a => decide (nkey sl.arena a < key))).map
      (fun a => (nkey sl.arena a, nvalue sl.arena a)), e.1 < key := by
    intro e he
    obtain ⟨a, ha, rfl⟩ := List.mem_map.mp he
    rw [List.mem_filter] at ha
    exact decide_eq_true_iff.mp ha.2
  have hdc : ∀ a b, nkey sl.arena a < nkey sl.arena b →
      decide (nkey sl.arena b < key) = true → decide (nkey sl.arena a < key) = true := by
    intro a b hab hb
    rw [decide_eq_true_iff] at hb ⊢
    exact lt_trans hab hb
  have hApart := pairwise_filter_append
      (fun a b => nkey sl.arena a < nkey sl.arena b)
      (fun a => decide (nkey sl.arena a < key)) hdc ids wf.hsort
  by_cases hk : key ∈ ids.map (nkey sl.arena)
  · obtain ⟨t, B1, hB, htk⟩ := head_key_found wf key hk
    obtain ⟨_, _, _, _, hfr, _, wf2⟩ := delete_found_spec wf key hB htk
    have hB1gt : ∀ x ∈ B1, key < nkey sl.arena x := by
      intro x hx
      obtain ⟨_, habove⟩ := filterGe_head key wf.hsort hB
      have := habove x hx
      omega
    have hidseq : ids = ids.filter (fun a => decide (nkey sl.arena a < key)) ++ t :: B1 := by
      rw [← hB]; exact hApart
    refine ⟨_, wf2, fun k => ?_⟩
    have hitems2 : (sl.delete key).2.get_all_items =
        (ids.filter (fun a => decide (nkey sl.arena a < key))).map
          (fun a => (nkey sl.arena a, nvalue sl.arena a)) ++
        B1.map (fun a => (nkey sl.arena a, nvalue sl.arena a)) := by
      rw [wf_items wf2, List.map_append]
      congr 1
      · refine List.map_congr_left ?_
        intro a _
        obtain ⟨h1, h2, _, _⟩ := hfr a
        rw [h1, h2]
      · refine List.map_congr_left ?_
        intro a _
        obtain ⟨h1, h2, _, _⟩ := hfr a
        rw [h1, h2]
    have hitems : sl.get_all_items =
        (ids.filter (fun a => decide (nkey sl.arena a < key))).map
          (fun a => (nkey sl.arena a, nvalue sl.arena a)) ++
        (nkey sl.arena t, nvalue sl.arena t) ::
          B1.map (fun a => (nkey sl.arena a, nvalue sl.arena a)) := by
      rw [wf_items wf]
      conv_lhs => rw [hidseq]
      rw [List.map_append, List.map_cons]
    rw [hitems2, hitems, statusOf_append, statusOf_append]
    by_cases hkk : key = k
    · subst hkk
      rw [if_pos rfl]
      rw [statusOf_eq_none _ key (fun e he => by have := hA_lt e he; omega)]
      rw [statusOf_eq_none (B1.map _) key (fun e he => by
        obtain ⟨a, ha, rfl⟩ := List.mem_map.mp he
        have h2 := hB1gt a ha
        intro hcon
        have h3 : nkey sl.arena a = key := hcon
        omega)]
      rfl
    · rw [if_neg hkk]
      rw [statusOf_cons_ne _ _ k (by rw [htk]; simpa using hkk)]
  · rw [delete_notfound wf key hk]
    refine ⟨ids, wf, fun k => ?_⟩
    by_cases hkk : key = k
    · subst hkk
      rw [if_pos rfl]
      refine statusOf_eq_none _ key (fun e he => ?_)
      rw [wf_items wf] at he
      obtain ⟨a, ha, rfl⟩ := List.mem_map.mp he
      intro hcon
      exact hk (List.mem_map.mpr ⟨a, ha, hcon⟩)
    · rw [if_neg hkk]

/-! ## Preservation along operation sequences -/

theorem exec_wf_status : ∀ (ops : List Op) (sl : SkipList) (ids : List Nat),
    WFwith sl ids →
    ∃ ids2, WFwith (exec sl ops) ids2 ∧
      ∀ k, statusOf (exec sl ops).get_all_items k =
        lastWrite k ops (statusOf sl.get_all_items k) := by
  intro ops
  induction ops with
  | nil =>
    intro sl ids wf
    exact ⟨ids, wf, fun k => rfl⟩
  | cons op ops ih =>
    intro sl ids wf
    cases op with
    | ins k2 v d =>
      obtain ⟨ids1, wf1, hst1⟩ := insert_status wf k2 v d
      obtain ⟨ids2, wf2, hst2⟩ := ih (sl.insert k2 v d) ids1 wf1
      refine ⟨ids2, wf2, fun k => ?_⟩
      show statusOf (exec (sl.insert k2 v d) ops).get_all_items k =
        lastWrite k ops (if k2 = k then some v else statusOf sl.get_all_items k)
      rw [hst2 k, hst1 k]
    | del k2 =>
      obtain ⟨ids1, wf1, hst1⟩ := delete_status wf k2
      obtain ⟨ids2, wf2, hst2⟩ := ih (sl.delete k2).2 ids1 wf1
      refine ⟨ids2, wf2, fun k => ?_⟩
      show statusOf (exec (sl.delete k2).2 ops).get_all_items k =
        lastWrite k ops (if k2 = k then none else statusOf sl.get_all_items k)
      rw [hst2 k, hst1 k]

theorem init_items (m : Nat) (p : Rat) : (SkipList.init m p).get_all_items = [] := by
  rw [wf_items (init_wf m p)]
  rfl

theorem exec_wf (m : Nat) (p : Rat) (ops : List Op) :
    ∃ ids, WFwith (exec (SkipList.init m p) ops) ids := by
  obtain ⟨ids, wf, _⟩ := exec_wf_status ops (SkipList.init m p) [] (init_wf m p)
  exact ⟨ids, wf⟩

theorem exec_status (m : Nat) (p : Rat) (ops : List Op) (k : Int) :
    ∃ ids, WFwith (exec (SkipList.init m p) ops) ids ∧
      statusOf (exec (SkipList.init m p) ops).get_all_items k =
        lastWrite k ops none := by
  obtain ⟨ids, wf, hst⟩ := exec_wf_status ops (SkipList.init m p) [] (init_wf m p)
  refine ⟨ids, wf, ?_⟩
  rw [hst k, init_items]
  rfl

/-! ## Observation corollaries of well-formedness -/

theorem wf_items_sorted {sl : SkipList} {ids : List Nat} (wf : WFwith sl ids) :
    (sl.get_all_items.map Prod.fst).Pairwise (· < ·) := by
  rw [wf_items wf, List.map_map]
  rw [List.pairwise_map]
  exact wf.hsort

theorem wf_levelKeys_sorted {sl : SkipList} {ids : List Nat} (wf : WFwith sl ids)
    (i : Nat) : (sl.levelKeys i).Pairwise (· < ·) := by
  rw [wf_levelKeys wf i, List.pairwise_map]
  exact WFfacts.chainL_sorted wf i

theorem wf_levelKeys_subset {sl : SkipList} {ids : List Nat} (wf : WFwith sl ids)
    (i : Nat) : sl.levelKeys (i + 1) ⊆ sl.levelKeys i := by
  rw [wf_levelKeys wf i, wf_levelKeys wf (i + 1)]
  intro x hx
  obtain ⟨a, ha, rfl⟩ := List.mem_map.mp hx
  exact List.mem_map.mpr ⟨a, WFfacts.chainL_mono sl.arena ids i a ha, rfl⟩

theorem wf_header_none_above {sl : SkipList} {ids : List Nat} (wf : WFwith sl ids) :
    ∀ i, sl.level < i → sl.header.getD i none = none :=
  WFfacts.header_none_above wf

/-! ## Support lemmas for the claims -/

theorem items_keys_eq {sl : SkipList} {ids : List Nat} (wf : WFwith sl ids) :
    sl.get_all_items.map Prod.fst = ids.map (nkey sl.arena) := by
  rw [wf_items wf, List.map_map]
  rfl

theorem search_lastWrite (m : Nat) (p : Rat) (ops : List Op) (k : Int)
    (v : Option Int) (h : lastWrite k ops none = some v) :
    (exec (SkipList.init m p) ops).search k = v := by
  obtain ⟨ids, wf, hst⟩ := exec_status m p ops k
  rw [search_spec wf k, hst, h]
  rfl

theorem key_inj {sl : SkipList} {ids : List Nat} (wf : WFwith sl ids) :
    ∀ a ∈ ids, ∀ b ∈ ids, nkey sl.arena a = nkey sl.arena b → a = b := by
  refine List.inj_on_of_nodup_map ?_
  have h := wf.hsort
  have hne : (ids.map (nkey sl.arena)).Pairwise (fun x y => x ≠ y) := by
    rw [List.pairwise_map]
    exact h.imp (fun hab => ne_of_lt hab)
  exact hne

/-! ## The claims -/

/-- C1 (amended): for every sequence of insert and delete operations starting
from a fresh container, if the most recent insert of key `k` stored value `v`
and `k` has not been deleted since (`lastWrite k ops none = some v`), then
`search k` returns that stored value `v`.  The original claim's parenthetical
"(not the not-found marker)" is dropped: when the stored value is Python
`None`, `search` returns `None`, which is exactly the not-found marker
(see the counterexample). -/
theorem claim1_search_roundtrip (m : Nat) (p : Rat) (ops : List Op) (k : Int)
    (v : Option Int) (h : lastWrite k ops none = some v) :
    (exec (SkipList.init m p) ops).search k = v :=
  search_lastWrite m p ops k v h

theorem claim1_search_roundtrip_witness :
    lastWrite 2 [Op.ins 2 (some 9) (fun _ => 1)] none = some (some 9) ∧
    (exec (SkipList.init 3 0) [Op.ins 2 (some 9) (fun _ => 1)]).search 2 = some 9 :=
  ⟨by decide,
    claim1_search_roundtrip 3 0 [Op.ins 2 (some 9) (fun _ => 1)] 2 (some 9) (by decide)⟩

/-- C1 counterexample to the original claim: key 1 is inserted with value
`None` and never deleted (`lastWrite` reports it present with stored value
`none`, and the container holds one element), yet `search 1` returns `none`,
the not-found marker — the returned value does not witness presence. -/
theorem claim1_counterexample :
    lastWrite 1 [Op.ins 1 none (fun _ => 0)] none = some none ∧
    (exec (SkipList.init 3 0) [Op.ins 1 none (fun _ => 0)]).len = 1 ∧
    (exec (SkipList.init 3 0) [Op.ins 1 none (fun _ => 0)]).search 1 = none := by
  refine ⟨by decide, by decide, by decide⟩

/-- C2: after every sequence of insert and delete operations starting from a
fresh container, the keys of `get_all_items` (the level-0 walk) are strictly
increasing, and at every level `i` the keys along the forward chain from the
header are strictly increasing. -/
theorem claim2_sorted_all_levels (m : Nat) (p : Rat) (ops : List Op) :
    ((exec (SkipList.init m p) ops).get_all_items.map Prod.fst).Pairwise (· < ·) ∧
    ∀ i, ((exec (SkipList.init m p) ops).levelKeys i).Pairwise (· < ·) := by
  obtain ⟨ids, wf⟩ := exec_wf m p ops
  exact ⟨wf_items_sorted wf, fun i => wf_levelKeys_sorted wf i⟩

/-- C3 (amended): the constructor performs no validation at all — for every
`max_level` (including 0) and every `p` (including values outside (0,1)) it
succeeds, stores the arguments unchanged, and yields a working empty
container; no error is raised and nothing is clamped. -/
theorem claim3_init_no_validation (m : Nat) (p : Rat) :
    (SkipList.init m p).max_level = m ∧ (SkipList.init m p).p = p ∧
    (SkipList.init m p).level = 0 ∧ (SkipList.init m p).get_all_items = [] ∧
    (SkipList.init m p).len = 0 := by
  refine ⟨rfl, rfl, rfl, init_items m p, ?_⟩
  rw [wf_len (init_wf m p)]
  rfl

/-- C3 counterexample to the original claim: construction with
`max_level = 0` (≤ 0) and `p = 2` (outside (0,1)) does not fail at
construction time — the arguments are stored as given, and the failure is not
even deferred: a subsequent insert and search work normally. -/
theorem claim3_counterexample :
    (SkipList.init 0 2).max_level = 0 ∧ (SkipList.init 0 2).p = 2 ∧
    (SkipList.init 0 2).level = 0 ∧
    ((SkipList.init 0 2).insert 1 (some 5) (fun _ => 1)).get_all_items =
      [(1, some 5)] ∧
    ((SkipList.init 0 2).insert 1 (some 5) (fun _ => 1)).search 1 = some 5 := by
  refine ⟨by decide, by decide, by decide, by decide, by decide⟩

/-- C4 (amended): for every key `k` whose most recent insert stored a
**non-None** value and which has not been deleted since, `contains k` returns
`true`.  The original claim's "including a None/absent-like value" is false:
a key stored with value `None` is reported absent by `contains`
(see the counterexample). -/
theorem claim4_contains_after_insert (m : Nat) (p : Rat) (ops : List Op)
    (k n : Int) (h : lastWrite k ops none = some (some n)) :
    (exec (SkipList.init m p) ops).contains k = true := by
  show ((exec (SkipList.init m p) ops).search k).isSome = true
  rw [search_lastWrite m p ops k (some n) h]
  rfl

theorem claim4_contains_after_insert_witness :
    lastWrite 7 [Op.ins 7 (some 3) (fun _ => 1)] none = some (some 3) ∧
    (exec (SkipList.init 4 0) [Op.ins 7 (some 3) (fun _ => 1)]).contains 7 = true :=
  ⟨by decide,
    claim4_contains_after_insert 4 0 [Op.ins 7 (some 3) (fun _ => 1)] 7 3 (by decide)⟩

/-- C4 counterexample to the original claim: key 1 is inserted with the
None-like value and never deleted (the container holds one element), yet
`contains 1` returns `false`. -/
theorem claim4_counterexample :
    lastWrite 1 [Op.ins 1 none (fun _ => 0)] none = some none ∧
    (exec (SkipList.init 4 0) [Op.ins 1 none (fun _ => 0)]).len = 1 ∧
    (exec (SkipList.init 4 0) [Op.ins 1 none (fun _ => 0)]).contains 1 = false := by
  refine ⟨by decide, by decide, by decide⟩

/-- C7: deleting a key that is not present returns `false` and leaves the
container state literally unchanged (hence `len`, `get_all_items`, the
current level and every level's chain are identical). -/
theorem claim7_delete_absent_noop (sl : SkipList) (k : Int) (hwf : WF sl)
    (hk : k ∉ sl.get_all_items.map Prod.fst) :
    sl.delete k = (false, sl) := by
  obtain ⟨ids, wf⟩ := hwf
  rw [items_keys_eq wf] at hk
  exact delete_notfound wf k hk

theorem claim7_delete_absent_noop_witness :
    WF (SkipList.init 3 0) ∧
    (1 : Int) ∉ (SkipList.init 3 0).get_all_items.map Prod.fst ∧
    (SkipList.init 3 0).delete 1 = (false, SkipList.init 3 0) :=
  ⟨⟨[], init_wf 3 0⟩, by decide,
    claim7_delete_absent_noop (SkipList.init 3 0) 1 ⟨[], init_wf 3 0⟩ (by decide)⟩

/-- C8: after every sequence of operations starting from a fresh container,
for every level `i ≥ 1` the keys reachable along forward links at level `i`
are a subset of those reachable at level `i - 1`. -/
theorem claim8_level_subset (m : Nat) (p : Rat) (ops : List Op) (i : Nat) :
    (exec (SkipList.init m p) ops).levelKeys (i + 1) ⊆
      (exec (SkipList.init m p) ops).levelKeys i := by
  obtain ⟨ids, wf⟩ := exec_wf m p ops
  exact wf_levelKeys_subset wf i

/-- C9: `random_level` is a total function of the draw stream (the loop runs
at most `max_level` iterations, so it terminates for every stream, even with
`p ≥ 1`), and its result never exceeds the configured `max_level` (it is a
`Nat`, so it is also at least 0). -/
theorem claim9_random_level_bounded (sl : SkipList) (draws : Nat → Rat) :
    sl.random_level draws ≤ sl.max_level :=
  random_level_le sl draws

/-- C5: if key `k` is present, `delete k` returns `true`; afterwards
`search k` reports not-found, the length is exactly one less than before, the
current level has not grown, and the header has no forward link at any level
above the new current level. -/
theorem claim5_delete_present (sl : SkipList) (k : Int) (hwf : WF sl)
    (hk : k ∈ sl.get_all_items.map Prod.fst) :
    (sl.delete k).1 = true ∧
    (sl.delete k).2.search k = none ∧
    (sl.delete k).2.len + 1 = sl.len ∧
    (sl.delete k).2.level ≤ sl.level ∧
    ∀ i, (sl.delete k).2.level < i → (sl.delete k).2.header.getD i none = none := by
  obtain ⟨ids, wf⟩ := hwf
  rw [items_keys_eq wf] at hk
  obtain ⟨b, B1, hB, hbk⟩ := head_key_found wf k hk
  obtain ⟨hret, _, _, _, _, hlvl, wf2⟩ := delete_found_spec wf k hB hbk
  refine ⟨hret, ?_, ?_, hlvl, wf_header_none_above wf2⟩
  · obtain ⟨ids2, wf3, hstat⟩ := delete_status wf k
    rw [search_spec wf3 k, hstat k, if_pos rfl]
    rfl
  · have hdc : ∀ a c, nkey sl.arena a < nkey sl.arena c →
        (decide (nkey sl.arena c < k)) = true →
        (decide (nkey sl.arena a < k)) = true := by
      intro a c hac hc
      rw [decide_eq_true_iff] at hc ⊢
      omega
    have hsplit := pairwise_filter_append
      (fun a c => nkey sl.arena a < nkey sl.arena c)
      (fun a => decide (nkey sl.arena a < k)) hdc ids wf.hsort
    rw [wf_len wf2, wf_len wf]
    conv_rhs => rw [hsplit]
    rw [hB]
    simp [List.length_append]
    omega

theorem claim5_delete_present_witness :
    WF ((SkipList.init 3 0).insert 5 (some 7) (fun _ => 1)) ∧
    (5 : Int) ∈ ((SkipList.init 3 0).insert 5 (some 7) (fun _ => 1)).get_all_items.map Prod.fst ∧
    ((((SkipList.init 3 0).insert 5 (some 7) (fun _ => 1)).delete 5).1 = true ∧
     (((SkipList.init 3 0).insert 5 (some 7) (fun _ => 1)).delete 5).2.search 5 = none ∧
     (((SkipList.init 3 0).insert 5 (some 7) (fun _ => 1)).delete 5).2.len + 1 =
       ((SkipList.init 3 0).insert 5 (some 7) (fun _ => 1)).len ∧
     (((SkipList.init 3 0).insert 5 (some 7) (fun _ => 1)).delete 5).2.level ≤
       ((SkipList.init 3 0).insert 5 (some 7) (fun _ => 1)).level ∧
     ∀ i, (((SkipList.init 3 0).insert 5 (some 7) (fun _ => 1)).delete 5).2.level < i →
       (((SkipList.init 3 0).insert 5 (some 7) (fun _ => 1)).delete 5).2.header.getD i none = none) :=
  ⟨⟨[0], by refine ⟨?_, ?_, ?_, ?_, ?_, ?_, ?_⟩ <;> decide⟩, by decide,
    claim5_delete_present ((SkipList.init 3 0).insert 5 (some 7) (fun _ => 1)) 5
      ⟨[0], by refine ⟨?_, ?_, ?_, ?_, ?_, ?_, ?_⟩ <;> decide⟩ (by decide)⟩

/-- C6: inserting a key that is already present replaces that entry's value
in place and changes nothing else: the result does not depend on the random
stream (the random source is not consulted), `len`, the current level and the
header are unchanged, every level's key chain is unchanged, `get_all_items`
only has that key's value replaced, and `search` afterwards returns the new
value. -/
theorem claim6_replace_in_place (sl : SkipList) (k : Int) (hwf : WF sl)
    (hk : k ∈ sl.get_all_items.map Prod.fst) (v : Option Int)
    (d d2 : Nat → Rat) :
    sl.insert k v d = sl.insert k v d2 ∧
    (sl.insert k v d).len = sl.len ∧
    (sl.insert k v d).level = sl.level ∧
    (sl.insert k v d).header = sl.header ∧
    (∀ i, (sl.insert k v d).levelKeys i = sl.levelKeys i) ∧
    (sl.insert k v d).get_all_items =
      sl.get_all_items.map (fun e => if e.1 = k then (e.1, v) else e) ∧
    (sl.insert k v d).search k = v := by
  obtain ⟨ids, wf⟩ := hwf
  rw [items_keys_eq wf] at hk
  obtain ⟨b, B1, hB, hbk⟩ := head_key_found wf k hk
  obtain ⟨nd, hnd, hndk, heq⟩ := insert_replace_eq wf k hB hbk v d
  obtain ⟨nd2, hnd2, hndk2, heq2⟩ := insert_replace_eq wf k hB hbk v d2
  have hnds : nd2 = nd := by
    rw [hnd] at hnd2
    exact (Option.some.inj hnd2).symm
  have hmemb : b ∈ ids := by
    have : b ∈ ids.filter (fun a => !decide (nkey sl.arena a < k)) := by
      rw [hB]; simp
    exact List.mem_of_mem_filter this
  have wf2 : WFwith (sl.insert k v d) ids := by
    rw [heq]
    exact replace_wf wf hmemb nd hnd v
  obtain ⟨hks, hlens2, hvb, hvother⟩ := set_value_accessors sl.arena b nd hnd v
  refine ⟨?_, ?_, ?_, ?_, ?_, ?_, ?_⟩
  · rw [heq, heq2, hnds]
  · rw [wf_len wf2, wf_len wf]
  · rw [heq]
  · rw [heq]
  · intro i
    rw [wf_levelKeys wf2 i, wf_levelKeys wf i, heq]
    have hfil : chainL (sl.arena.set b { nd with value := v }) ids i =
        chainL sl.arena ids i := by
      unfold chainL
      exact List.filter_congr (fun a _ => by rw [hlens2 a])
    rw [hfil]
    exact List.map_congr_left (fun a _ => hks a)
  · rw [wf_items wf2, wf_items wf, List.map_map, heq]
    refine List.map_congr_left ?_
    intro a ha
    simp only [Function.comp]
    by_cases hab : a = b
    · subst hab
      rw [hks a, hvb]
      rw [if_pos hbk]
    · rw [hks a, hvother a hab]
      rw [if_neg ?_]
      intro hcon
      exact hab (key_inj wf a ha b hmemb (hcon.trans hbk.symm))
  · obtain ⟨ids3, wf3, hstat⟩ := insert_status wf k v d
    rw [search_spec wf3 k, hstat k, if_pos rfl]
    rfl

theorem claim6_replace_in_place_witness :
    WF ((SkipList.init 2 0).insert 4 (some 1) (fun _ => 1)) ∧
    (4 : Int) ∈ ((SkipList.init 2 0).insert 4 (some 1) (fun _ => 1)).get_all_items.map Prod.fst ∧
    (((SkipList.init 2 0).insert 4 (some 1) (fun _ => 1)).insert 4 (some 2) (fun _ => 0) =
       ((SkipList.init 2 0).insert 4 (some 1) (fun _ => 1)).insert 4 (some 2) (fun _ => 1) ∧
     (((SkipList.init 2 0).insert 4 (some 1) (fun _ => 1)).insert 4 (some 2) (fun _ => 0)).len =
       ((SkipList.init 2 0).insert 4 (some 1) (fun _ => 1)).len ∧
     (((SkipList.init 2 0).insert 4 (some 1) (fun _ => 1)).insert 4 (some 2) (fun _ => 0)).level =
       ((SkipList.init 2 0).insert 4 (some 1) (fun _ => 1)).level ∧
     (((SkipList.init 2 0).insert 4 (some 1) (fun _ => 1)).insert 4 (some 2) (fun _ => 0)).header =
       ((SkipList.init 2 0).insert 4 (some 1) (fun _ => 1)).header ∧
     (∀ i, (((SkipList.init 2 0).insert 4 (some 1) (fun _ => 1)).insert 4 (some 2) (fun _ => 0)).levelKeys i =
       ((SkipList.init 2 0).insert 4 (some 1) (fun _ => 1)).levelKeys i) ∧
     (((SkipList.init 2 0).insert 4 (some 1) (fun _ => 1)).insert 4 (some 2) (fun _ => 0)).get_all_items =
       ((SkipList.init 2 0).insert 4 (some 1) (fun _ => 1)).get_all_items.map
         (fun e => if e.1 = 4 then (e.1, some 2) else e) ∧
     (((SkipList.init 2 0).insert 4 (some 1) (fun _ => 1)).insert 4 (some 2) (fun _ => 0)).search 4 = some 2) :=
  ⟨⟨[0], by refine ⟨?_, ?_, ?_, ?_, ?_, ?_, ?_⟩ <;> decide⟩, by decide,
    claim6_replace_in_place ((SkipList.init 2 0).insert 4 (some 1) (fun _ => 1)) 4
      ⟨[0], by refine ⟨?_, ?_, ?_, ?_, ?_, ?_, ?_⟩ <;> decide⟩ (by decide) (some 2)
      (fun _ => 0) (fun _ => 1)⟩

/-- C10: inserting an absent key `k` and then immediately deleting `k`
restores the container to a state observably equal to the original:
`delete` reports the key found, and `get_all_items`, `len`, the current level
and the key chain at every level are exactly as before the insert. -/
theorem claim10_insert_delete_roundtrip (sl : SkipList) (k : Int) (hwf : WF sl)
    (hk : k ∉ sl.get_all_items.map Prod.fst) (v : Option Int) (d : Nat → Rat) :
    ((sl.insert k v d).delete k).1 = true ∧
    ((sl.insert k v d).delete k).2.get_all_items = sl.get_all_items ∧
    ((sl.insert k v d).delete k).2.len = sl.len ∧
    ((sl.insert k v d).delete k).2.level = sl.level ∧
    ∀ i, ((sl.insert k v d).delete k).2.levelKeys i = sl.levelKeys i := by
  obtain ⟨ids, wf⟩ := hwf
  rw [items_keys_eq wf] at hk
  have hins := insert_notfound_eq wf k hk v d
  obtain ⟨hml, hp, hlvl1, hlen1, hframe, hknew, hvnew, hlnew, wf1⟩ :=
    insertNew_spec wf k hk v d _ (fun i => WFfacts.descend_getD wf k i)
  rw [← hins] at hml hp hlvl1 hlen1 hframe hknew hvnew hlnew wf1
  have hidslt : ∀ a ∈ ids, a < sl.arena.length := by
    intro a ha
    have halive := (wf.hnode a ha).1
    unfold alive at halive
    rw [Option.isSome_iff_exists] at halive
    obtain ⟨nd, hnd⟩ := halive
    exact (List.getElem?_eq_some_iff.mp hnd).1
  have hfA : (ids.filter (fun a => decide (nkey sl.arena a < k))).filter
      (fun a => !decide (nkey (sl.insert k v d).arena a < k)) = [] := by
    rw [List.filter_eq_nil_iff]
    intro a ha
    have haids : a ∈ ids := List.mem_of_mem_filter ha
    have hne : a ≠ sl.arena.length := Nat.ne_of_lt (hidslt a haids)
    have hkeq := (hframe a hne).1
    rw [List.mem_filter] at ha
    rw [hkeq, ha.2]
    simp
  have hfB : (ids.filter (fun a => !decide (nkey sl.arena a < k))).filter
      (fun a => !decide (nkey (sl.insert k v d).arena a < k)) =
      ids.filter (fun a => !decide (nkey sl.arena a < k)) := by
    rw [List.filter_eq_self]
    intro a ha
    have haids : a ∈ ids := List.mem_of_mem_filter ha
    have hne : a ≠ sl.arena.length := Nat.ne_of_lt (hidslt a haids)
    have hkeq := (hframe a hne).1
    rw [List.mem_filter] at ha
    rw [hkeq]
    exact ha.2
  have hB2 : ((ids.filter (fun a => decide (nkey sl.arena a < k)) ++
      sl.arena.length :: ids.filter (fun a => !decide (nkey sl.arena a < k))).filter
      (fun a => !decide (nkey (sl.insert k v d).arena a < k))) =
      sl.arena.length :: ids.filter (fun a => !decide (nkey sl.arena a < k)) := by
    rw [List.filter_append, hfA, List.nil_append, List.filter_cons]
    have hcond : (!decide (nkey (sl.insert k v d).arena sl.arena.length < k)) = true := by
      rw [hknew]
      simp
    rw [if_pos hcond, hfB]
  obtain ⟨hret, hml2, hp2, hlen2, hacc2, hlvl2, wf2⟩ :=
    delete_found_spec wf1 k hB2 hknew
  have hfA2 : ((ids.filter (fun a => decide (nkey sl.arena a < k)) ++
      sl.arena.length :: ids.filter (fun a => !decide (nkey sl.arena a < k))).filter
      (fun a => decide (nkey (sl.insert k v d).arena a < k))) =
      ids.filter (fun a => decide (nkey sl.arena a < k)) := by
    have h1 : (ids.filter (fun a => decide (nkey sl.arena a < k))).filter
        (fun a => decide (nkey (sl.insert k v d).arena a < k)) =
        ids.filter (fun a => decide (nkey sl.arena a < k)) := by
      rw [List.filter_eq_self]
      intro a ha
      have haids : a ∈ ids := List.mem_of_mem_filter ha
      have hne : a ≠ sl.arena.length := Nat.ne_of_lt (hidslt a haids)
      have hkeq := (hframe a hne).1
      rw [List.mem_filter] at ha
      rw [hkeq]
      exact ha.2
    have h2 : (ids.filter (fun a => !decide (nkey sl.arena a < k))).filter
        (fun a => decide (nkey (sl.insert k v d).arena a < k)) = [] := by
      rw [List.filter_eq_nil_iff]
      intro a ha
      have haids : a ∈ ids := List.mem_of_mem_filter ha
      have hne : a ≠ sl.arena.length := Nat.ne_of_lt (hidslt a haids)
      have hkeq := (hframe a hne).1
      rw [List.mem_filter] at ha
      have hx : decide (nkey sl.arena a < k) = false := by
        simpa using ha.2
      rw [hkeq, hx]
      simp
    have hcondA : ¬ ((decide (nkey (sl.insert k v d).arena sl.arena.length < k)) = true) := by
      rw [hknew]
      simp
    rw [List.filter_append, List.filter_cons, if_neg hcondA, h1, h2, List.append_nil]
  rw [hfA2] at wf2
  have hdc : ∀ a c, nkey sl.arena a < nkey sl.arena c →
      (decide (nkey sl.arena c < k)) = true →
      (decide (nkey sl.arena a < k)) = true := by
    intro a c hac hc
    rw [decide_eq_true_iff] at hc ⊢
    omega
  have hsplit := pairwise_filter_append
    (fun a c => nkey sl.arena a < nkey sl.arena c)
    (fun a => decide (nkey sl.arena a < k)) hdc ids wf.hsort
  have hABids : ∀ a ∈ (ids.filter (fun a => decide (nkey sl.arena a < k)) ++
      ids.filter (fun a => !decide (nkey sl.arena a < k))), a ∈ ids := by
    intro a ha
    rw [hsplit]
    exact ha
  have haccs : ∀ a ∈ (ids.filter (fun a => decide (nkey sl.arena a < k)) ++
      ids.filter (fun a => !decide (nkey sl.arena a < k))),
      nkey ((sl.insert k v d).delete k).2.arena a = nkey sl.arena a ∧
      nvalue ((sl.insert k v d).delete k).2.arena a = nvalue sl.arena a ∧
      nlen ((sl.insert k v d).delete k).2.arena a = nlen sl.arena a := by
    intro a ha
    have haids := hABids a ha
    have hne : a ≠ sl.arena.length := Nat.ne_of_lt (hidslt a haids)
    obtain ⟨h1, h2, h3, _⟩ := hacc2 a
    obtain ⟨g1, g2, g3, _⟩ := hframe a hne
    exact ⟨h1.trans g1, h2.trans g2, h3.trans g3⟩
  refine ⟨hret, ?_, ?_, ?_, ?_⟩
  · rw [wf_items wf2, wf_items wf]
    conv_rhs => rw [hsplit]
    refine List.map_congr_left ?_
    intro a ha
    obtain ⟨h1, h2, h3⟩ := haccs a ha
    rw [h1, h2]
  · rw [wf_len wf2, wf_len wf]
    conv_rhs => rw [hsplit]
  · rw [wf_level wf2, wf_level wf]
    conv_rhs => rw [hsplit]
    have hmapeq : ((ids.filter (fun a => decide (nkey sl.arena a < k)) ++
        ids.filter (fun a => !decide (nkey sl.arena a < k))).map
        (fun a => nlen ((sl.insert k v d).delete k).2.arena a - 1)) =
        ((ids.filter (fun a => decide (nkey sl.arena a < k)) ++
        ids.filter (fun a => !decide (nkey sl.arena a < k))).map
        (fun a => nlen sl.arena a - 1)) := by
      refine List.map_congr_left ?_
      intro a ha
      rw [(haccs a ha).2.2]
    rw [hmapeq]
  · intro i
    rw [wf_levelKeys wf2 i, wf_levelKeys wf i]
    conv_rhs => rw [hsplit]
    unfold chainL
    have hfil : ((ids.filter (fun a => decide (nkey sl.arena a < k)) ++
        ids.filter (fun a => !decide (nkey sl.arena a < k))).filter
        (fun a => decide (i < nlen ((sl.insert k v d).delete k).2.arena a))) =
        ((ids.filter (fun a => decide (nkey sl.arena a < k)) ++
        ids.filter (fun a => !decide (nkey sl.arena a < k))).filter
        (fun a => decide (i < nlen sl.arena a))) := by
      refine List.filter_congr ?_
      intro a ha
      rw [(haccs a ha).2.2]
    rw [hfil]
    refine List.map_congr_left ?_
    intro a ha
    have ha2 : a ∈ (ids.filter (fun a => decide (nkey sl.arena a < k)) ++
        ids.filter (fun a => !decide (nkey sl.arena a < k))) :=
      List.mem_of_mem_filter ha
    exact (haccs a ha2).1

theorem claim10_insert_delete_roundtrip_witness :
    WF (SkipList.init 2 0) ∧
    (1 : Int) ∉ (SkipList.init 2 0).get_all_items.map Prod.fst ∧
    ((((SkipList.init 2 0).insert 1 (some 5) (fun _ => 1)).delete 1).1 = true ∧
     (((SkipList.init 2 0).insert 1 (some 5) (fun _ => 1)).delete 1).2.get_all_items =
       (SkipList.init 2 0).get_all_items ∧
     (((SkipList.init 2 0).insert 1 (some 5) (fun _ => 1)).delete 1).2.len =
       (SkipList.init 2 0).len ∧
     (((SkipList.init 2 0).insert 1 (some 5) (fun _ => 1)).delete 1).2.level =
       (SkipList.init 2 0).level ∧
     ∀ i, (((SkipList.init 2 0).insert 1 (some 5) (fun _ => 1)).delete 1).2.levelKeys i =
       (SkipList.init 2 0).levelKeys i) :=
  ⟨⟨[], init_wf 2 0⟩, by decide,
    claim10_insert_delete_roundtrip (SkipList.init 2 0) 1 ⟨[], init_wf 2 0⟩ (by decide) (some 5) (fun _ => 1)⟩
